import Mathlib

/-!
# Verification of the onlineFDR LORD* C++ core (src/lordstar.cpp)

Shallow embedding of the three procedures `lordstar_async_faster`,
`lordstar_dep_faster` and `lordstar_batch_faster`.

Modelling conventions:
* `double` values (p-values, thresholds, gammai) are modelled as `ℚ`;
  all comparisons in the source are exact comparisons, so `ℚ` is faithful.
* Rcpp vectors are Lean lists.  Rcpp `operator[]` does not revise history,
  and every read or write whose index may fall outside the vector is
  modelled as a checked access in the `Option` monad: an out-of-range
  access makes the whole run return `none`.
* `std::upper_bound` is the classic half-open binary search; it is
  modelled step for step (with a fuel argument bounding the number of
  loop iterations, which is at most the initial window size).
-/

namespace OnlineFDR

/-- Checked vector read at a (possibly negative) C `int` index. -/
def getZ {α : Type} (xs : List α) (i : ℤ) : Option α :=
  if 0 ≤ i then xs.get? i.toNat else none

/-- `max` over an Rcpp vector (used only on non-empty vectors in the source). -/
def vecMax (xs : List ℤ) : ℤ :=
  xs.foldl max (xs.headD 0)

/-- One step of the `std::upper_bound` binary-search loop:
`first` is the start of the current window, `count` its length.
`fuel` bounds the number of iterations; since the window length strictly
decreases at every iteration, `fuel = count` is always enough. -/
def upperBoundAux (xs : List ℤ) (y : ℤ) : ℕ → ℕ → ℕ → ℕ
  | 0, first, _ => first
  | fuel + 1, first, count =>
    if count = 0 then first
    else
      let step := count / 2
      if y < xs.getD (first + step) 0 then
        upperBoundAux xs y fuel first step
      else
        upperBoundAux xs y fuel (first + step + 1) (count - step - 1)

/-- `std::upper_bound(xs.begin(), xs.end(), y) - xs.begin()`. -/
def upperBound (xs : List ℤ) (y : ℤ) : ℕ :=
  upperBoundAux xs y xs.length 0 xs.length

/-- The cumulative-count inversion shared by the three procedures:
for each count level `y` from `0` to `max - 1`, the position returned by
`std::upper_bound` on the cumulative-count vector. -/
def invertCounts (xs : List ℤ) : List ℕ :=
  (List.range (vecMax xs).toNat).map (fun (y : ℕ) => upperBound xs (y : ℤ))

/-- State threaded through the per-step loop of the async and dependency
procedures: the threshold vector `alphai`, the decision vector `R`
(both allocated at length `N` and updated in place), and the
cumulative visible-rejection-count vector (`Rdec` resp. `Rlag`),
which only grows by `push_back`. -/
structure SState where
  alphai : List ℚ
  R : List Bool
  hist : List ℤ
  deriving Repr, DecidableEq

/-- The visible-rejection count of the async procedure at step `i`:
`cond += 1` for each `j < i` with `R[j] && (E[j]-1 <= i-1)`.
`E[j]` is only read when `R[j]` holds (C++ `&&` short-circuits). -/
def asyncCond (R : List Bool) (E : List ℤ) (i : ℕ) : Option ℤ :=
  (List.range i).foldlM
    (fun c j => do
      let rj ← R.get? j
      if rj then do
        let ej ← E.get? j
        pure (if ej - 1 ≤ (i : ℤ) - 1 then c + 1 else c)
      else
        pure c)
    0

/-- The visible-rejection count of the dependency procedure at step `i`:
zero when the lag exceeds the available history (`i-1-L[i] < 0`),
otherwise the number of rejections among `j < i - L[i]`. -/
def depCond (R : List Bool) (L : List ℤ) (i : ℕ) : Option ℤ := do
  let li ← L.get? i
  if 0 ≤ (i : ℤ) - 1 - li then
    (List.range ((i : ℤ) - li).toNat).foldlM
      (fun c j => do
        let rj ← R.get? j
        pure (if rj then c + 1 else c))
      0
  else
    pure 0

/-- The threshold computation shared verbatim by the async and dependency
procedures (lines 56-81 and 129-154 of the source): a three-way case
split on the size of the inverted-position vector `r`. -/
def stepThreshold (gammai : List ℚ) (w0 alpha : ℚ) (i : ℕ) (r : List ℕ) :
    Option ℚ :=
  if r.length ≤ 1 then
    if 0 < r.length then do
      let g1 ← getZ gammai (i : ℤ)
      let g2 ← getZ gammai ((i : ℤ) - (r.headD 0 : ℕ) - 1)
      pure (g1 * w0 + (alpha - w0) * g2)
    else do
      let g1 ← getZ gammai (i : ℤ)
      pure (g1 * w0)
  else do
    let g1 ← getZ gammai (i : ℤ)
    let g2 ← getZ gammai ((i : ℤ) - (r.headD 0 : ℕ) - 1)
    let s ← (r.drop 1).foldlM
      (fun acc rg => do
        let g ← getZ gammai ((i : ℤ) - (rg : ℕ) - 1)
        pure (acc + g))
      0
    pure (g1 * w0 + (alpha - w0) * g2 + alpha * s)

/-- Loop body of `lordstar_async_faster` for step `i ≥ 1`. -/
def asyncStep (pval : List ℚ) (E : List ℤ) (gammai : List ℚ)
    (w0 alpha : ℚ) (st : SState) (i : ℕ) : Option SState := do
  let cond ← asyncCond st.R E i
  let hist := st.hist ++ [cond]
  let r := if 0 < vecMax hist then invertCounts hist else []
  let ai ← stepThreshold gammai w0 alpha i r
  let pi ← pval.get? i
  pure ⟨st.alphai.set i ai, st.R.set i (decide (pi ≤ ai)), hist⟩

/-- Loop body of `lordstar_dep_faster` for step `i ≥ 1` (the inversion
loop is not guarded there, but an empty `range` gives the same `r`). -/
def depStep (pval : List ℚ) (L : List ℤ) (gammai : List ℚ)
    (w0 alpha : ℚ) (st : SState) (i : ℕ) : Option SState := do
  let cond ← depCond st.R L i
  let hist := st.hist ++ [cond]
  let r := invertCounts hist
  let ai ← stepThreshold gammai w0 alpha i r
  let pi ← pval.get? i
  pure ⟨st.alphai.set i ai, st.R.set i (decide (pi ≤ ai)), hist⟩

/-- `lordstar_async_faster`.  Returns the `alphai` and `R` columns of the
output data frame, or `none` when the run performs an out-of-range
vector access.  The write `Rdectest[1] = 1` into the length-`N` buffer
`Rdectest` (source lines 30-31) is in range only when `1 < N`. -/
def lordstar_async_faster (pval : List ℚ) (E : List ℤ) (gammai : List ℚ)
    (w0 alpha : ℚ) : Option (List ℚ × List Bool) := do
  let N := pval.length
  let g0 ← gammai.get? 0
  let p0 ← pval.get? 0
  let a0 := g0 * w0
  let st0 : SState :=
    ⟨(List.replicate N (0 : ℚ)).set 0 a0,
     (List.replicate N false).set 0 (decide (p0 ≤ a0)), []⟩
  if 1 < N then do
    let stF ← (List.range' 1 (N - 1)).foldlM
      (asyncStep pval E gammai w0 alpha) st0
    pure (stF.alphai, stF.R)
  else
    none

/-- `lordstar_dep_faster`.  Returns the `alphai` and `R` columns of the
output data frame (the echoed `pval` and `lag` columns are the inputs). -/
def lordstar_dep_faster (pval : List ℚ) (L : List ℤ) (gammai : List ℚ)
    (w0 alpha : ℚ) : Option (List ℚ × List Bool) := do
  let N := pval.length
  let g0 ← gammai.get? 0
  let p0 ← pval.get? 0
  let a0 := g0 * w0
  let st0 : SState :=
    ⟨(List.replicate N (0 : ℚ)).set 0 a0,
     (List.replicate N false).set 0 (decide (p0 ≤ a0)), []⟩
  let stF ← (List.range' 1 (N - 1)).foldlM
    (depStep pval L gammai w0 alpha) st0
  pure (stF.alphai, stF.R)

/-- Batch-procedure state: the `B × max(batch)` threshold and decision
matrices, stored row-major as lists of rows. -/
structure BState where
  A : List (List ℚ)
  R : List (List Bool)
  deriving Repr, DecidableEq

/-- Write one matrix cell (always in range at the source's call sites). -/
def setCell {α : Type} (m : List (List α)) (b x : ℕ) (v : α) :
    List (List α) :=
  m.set b ((m.getD b []).set x v)

/-- `rowSums` of a logical matrix. -/
def rowSums (R : List (List Bool)) : List ℤ :=
  R.map (fun row => (row.map (fun v => if v then (1 : ℤ) else 0)).sum)

/-- `cumsum` of a vector. -/
def cumsum (xs : List ℤ) : List ℤ :=
  (List.range xs.length).map (fun k => (xs.take (k + 1)).sum)

/-- The three-way threshold computation of the batch procedure (source
lines 203-222): like `stepThreshold`, but ages are measured through the
batch prefix-sum table, `gammai[gidx - batchsum[r[g]]]`. -/
def batchThreshold (batchsum : List ℤ) (gammai : List ℚ)
    (w0 alpha : ℚ) (gidx : ℤ) (r : List ℕ) : Option ℚ :=
  if r.length ≤ 1 then
    if 0 < r.length then do
      let g1 ← getZ gammai gidx
      let bs0 ← batchsum.get? (r.headD 0)
      let g2 ← getZ gammai (gidx - bs0)
      pure (g1 * w0 + (alpha - w0) * g2)
    else do
      let g1 ← getZ gammai gidx
      pure (g1 * w0)
  else do
    let g1 ← getZ gammai gidx
    let bs0 ← batchsum.get? (r.headD 0)
    let s ← (r.drop 1).foldlM
      (fun acc rg => do
        let bsg ← batchsum.get? rg
        let g ← getZ gammai (gidx - bsg)
        pure (acc + g))
      0
    let g2 ← getZ gammai (gidx - bs0)
    pure (g1 * w0 + (alpha - w0) * g2 + alpha * s)

/-- Body of the inner loop of `lordstar_batch_faster` for batch `b ≥ 1`
and within-batch position `x`. -/
def batchBody (pval : List ℚ) (batchsum : List ℤ) (gammai : List ℚ)
    (w0 alpha : ℚ) (b : ℕ) (rcum : List ℤ) (st : BState) (x : ℕ) :
    Option BState := do
  let r := if 0 < vecMax rcum then invertCounts rcum else []
  let bs ← batchsum.get? (b - 1)
  let gidx : ℤ := bs + (x : ℕ)
  let ai ← batchThreshold batchsum gammai w0 alpha gidx r
  let pi ← getZ pval gidx
  pure ⟨setCell st.A b x ai, setCell st.R b x (decide (pi ≤ ai))⟩

/-- Body of the outer loop of `lordstar_batch_faster` for batch `b ≥ 1`:
the batch-level cumulative rejection counts `rcum` are computed once
per batch, before the inner loop. -/
def batchOuter (pval : List ℚ) (batch batchsum : List ℤ)
    (gammai : List ℚ) (w0 alpha : ℚ) (st : BState) (b : ℕ) :
    Option BState := do
  let rcum := cumsum (rowSums st.R)
  let nb ← batch.get? b
  (List.range nb.toNat).foldlM
    (batchBody pval batchsum gammai w0 alpha b rcum) st

/-- `lordstar_batch_faster`.  Returns the `alphai` and `R` matrices; the
seeding loop's bound reads `batch[0]`, so an empty `batch` vector is an
out-of-range access. -/
def lordstar_batch_faster (pval : List ℚ) (batch batchsum : List ℤ)
    (gammai : List ℚ) (w0 alpha : ℚ) :
    Option (List (List ℚ) × List (List Bool)) := do
  let B := batch.length
  let M := (vecMax batch).toNat
  let b0 ← batch.get? 0
  let st0 ← (List.range b0.toNat).foldlM
    (fun st i => do
      let gi ← gammai.get? i
      let ai := gi * w0
      let pi ← pval.get? i
      pure (⟨setCell st.A 0 i ai,
             setCell st.R 0 i (decide (pi ≤ ai))⟩ : BState))
    ⟨List.replicate B (List.replicate M (0 : ℚ)),
     List.replicate B (List.replicate M false)⟩
  let stF ← (List.range' 1 (B - 1)).foldlM
    (batchOuter pval batch batchsum gammai w0 alpha) st0
  pure (stF.A, stF.R)

/-! ### Basic access lemmas -/

theorem getZ_natCast {α : Type} (xs : List α) (n : ℕ) :
    getZ xs (n : ℤ) = xs.get? n := by
  simp [getZ]

theorem getZ_eq_some {α : Type} {xs : List α} {t : ℤ} {a : α} (d : α)
    (h : getZ xs t = some a) :
    0 ≤ t ∧ t.toNat < xs.length ∧ xs.getD t.toNat d = a := by
  unfold getZ at h
  split at h
  · next h0 =>
    rcases List.get?_eq_some.mp h with ⟨hlt, _⟩
    refine ⟨h0, hlt, ?_⟩
    simp [List.getD_eq_getElem?_getD, ← List.get?_eq_getElem?, h]
  · exact absurd h (by simp)

theorem get?_replicate_lt {α : Type} (a : α) {n i : ℕ} (h : i < n) :
    (List.replicate n a).get? i = some a := by
  rw [List.get?_eq_getElem?, List.getElem?_replicate]
  simp [h]

theorem get?_some_getD {α : Type} {xs : List α} {i : ℕ} {a : α} (d : α)
    (h : xs.get? i = some a) : xs.getD i d = a := by
  simp [List.getD_eq_getElem?_getD, ← List.get?_eq_getElem?, h]

theorem get?_some_mem {α : Type} {xs : List α} {i : ℕ} {a : α}
    (h : xs.get? i = some a) : a ∈ xs := by
  rcases List.get?_eq_some.mp h with ⟨hlt, hget⟩
  exact hget ▸ List.get_mem xs i hlt

/-! ### `vecMax` lemmas -/

theorem foldl_max_facts :
    ∀ (l : List ℤ) (init : ℤ),
      init ≤ l.foldl max init ∧ ∀ a ∈ l, a ≤ l.foldl max init := by
  intro l
  induction l with
  | nil => intro init; exact ⟨le_refl _, by simp⟩
  | cons b l ih =>
    intro init
    have h1 := (ih (max init b)).1
    constructor
    · exact le_trans (le_max_left _ _) h1
    · intro a ha
      rcases List.mem_cons.mp ha with rfl | ha
      · exact le_trans (le_max_right _ _) h1
      · exact (ih (max init b)).2 a ha

theorem foldl_max_mem :
    ∀ (l : List ℤ) (init : ℤ), l.foldl max init = init ∨ l.foldl max init ∈ l := by
  intro l
  induction l with
  | nil => intro init; exact Or.inl rfl
  | cons b l ih =>
    intro init
    rw [List.foldl_cons]
    rcases ih (max init b) with h | h
    · rw [h]
      rcases max_choice init b with h2 | h2
      · exact Or.inl h2
      · exact Or.inr (by rw [h2]; exact List.mem_cons_self _ _)
    · exact Or.inr (List.mem_cons_of_mem _ h)

theorem le_vecMax {xs : List ℤ} {a : ℤ} (h : a ∈ xs) : a ≤ vecMax xs :=
  (foldl_max_facts xs (xs.headD 0)).2 a h

theorem vecMax_mem {xs : List ℤ} (h : xs ≠ []) : vecMax xs ∈ xs := by
  rcases foldl_max_mem xs (xs.headD 0) with h1 | h1
  · rw [vecMax, h1]
    cases xs with
    | nil => exact absurd rfl h
    | cons a l => exact List.mem_cons_self _ _
  · exact h1

/-- The async procedure guards its inversion loop with `max(Rdec) > 0`;
the guard is redundant because an empty `range` yields an empty `r`. -/
theorem guard_invert (h : List ℤ) :
    (if 0 < vecMax h then invertCounts h else []) = invertCounts h := by
  split
  · rfl
  · next hle =>
    have : (vecMax h).toNat = 0 := by omega
    simp [invertCounts, this]

/-! ### Fold machinery over `Option` -/

theorem foldlM_inv {σ α : Type} {f : σ → α → Option σ} (P : σ → Prop) :
    ∀ (l : List α) (s0 sF : σ), l.foldlM f s0 = some sF → P s0 →
      (∀ s a s', a ∈ l → f s a = some s' → P s → P s') → P sF := by
  intro l
  induction l with
  | nil =>
    intro s0 sF h hP _
    rw [List.foldlM_nil] at h
    cases h; exact hP
  | cons a l ih =>
    intro s0 sF h hP hstep
    rw [List.foldlM_cons] at h
    cases hfa : f s0 a with
    | none => rw [hfa] at h; exact absurd h (by simp)
    | some s1 =>
      rw [hfa] at h
      simp only [Option.bind_eq_bind, Option.some_bind] at h
      exact ih s1 sF h (hstep s0 a s1 (List.mem_cons_self _ _) hfa hP)
        (fun s b s' hb => hstep s b s' (List.mem_cons_of_mem _ hb))

theorem foldlM_range_inv {σ : Type} (f : σ → ℕ → Option σ) (P : ℕ → σ → Prop) :
    ∀ (k i : ℕ) (s0 sF : σ),
      (List.range' i k).foldlM f s0 = some sF → P i s0 →
      (∀ j s s', i ≤ j → j < i + k → f s j = some s' → P j s → P (j + 1) s') →
      P (i + k) sF := by
  intro k
  induction k with
  | zero =>
    intro i s0 sF h hP _
    rw [show List.range' i 0 = [] from rfl, List.foldlM_nil] at h
    cases h; exact hP
  | succ k ih =>
    intro i s0 sF h hP hstep
    rw [List.range'_succ, List.foldlM_cons] at h
    cases hfa : f s0 i with
    | none => rw [hfa] at h; exact absurd h (by simp)
    | some s1 =>
      rw [hfa] at h
      simp only [Option.bind_eq_bind, Option.some_bind] at h
      have hkey := ih (i + 1) s1 sF h
        (hstep i s0 s1 (le_refl i) (by omega) hfa hP)
        (fun j s s' hj hjk => hstep j s s' (by omega) (by omega))
      have : i + (k + 1) = i + 1 + k := by omega
      rw [this]; exact hkey

theorem foldlM_range_congr {σ : Type} (f g : σ → ℕ → Option σ)
    (P : ℕ → σ → Prop) :
    ∀ (k i : ℕ) (s0 : σ), P i s0 →
      (∀ j s, i ≤ j → j < i + k → P j s →
        f s j = g s j ∧ ∀ s', f s j = some s' → P (j + 1) s') →
      (List.range' i k).foldlM f s0 = (List.range' i k).foldlM g s0 := by
  intro k
  induction k with
  | zero => intro i s0 _ _; rfl
  | succ k ih =>
    intro i s0 hP hstep
    rw [List.range'_succ, List.foldlM_cons, List.foldlM_cons]
    have heq : f s0 i = g s0 i := (hstep i s0 (le_refl i) (by omega) hP).1
    rw [← heq]
    cases hf : f s0 i with
    | none => simp
    | some s1 =>
      simp only [Option.bind_eq_bind, Option.some_bind]
      exact ih (i + 1) s1 ((hstep i s0 (le_refl i) (by omega) hP).2 s1 hf)
        (fun j s hj hjk => hstep j s (by omega) (by omega))

theorem foldlM_range_map {σ τ : Type} (f : σ → ℕ → Option σ)
    (g : τ → ℕ → Option τ) (φ : σ → τ) (P : ℕ → σ → Prop) :
    ∀ (k i : ℕ) (s0 : σ), P i s0 →
      (∀ j s, i ≤ j → j < i + k → P j s →
        g (φ s) j = (f s j).map φ ∧ ∀ s', f s j = some s' → P (j + 1) s') →
      (List.range' i k).foldlM g (φ s0) = ((List.range' i k).foldlM f s0).map φ := by
  intro k
  induction k with
  | zero => intro i s0 _ _; rfl
  | succ k ih =>
    intro i s0 hP hstep
    rw [List.range'_succ, List.foldlM_cons, List.foldlM_cons]
    have heq : g (φ s0) i = (f s0 i).map φ :=
      (hstep i s0 (le_refl i) (by omega) hP).1
    cases hf : f s0 i with
    | none => rw [heq, hf]; simp
    | some s1 =>
      rw [heq, hf]
      simp only [Option.map_some, Option.bind_eq_bind, Option.some_bind]
      exact ih (i + 1) s1 ((hstep i s0 (le_refl i) (by omega) hP).2 s1 hf)
        (fun j s hj hjk => hstep j s (by omega) (by omega))

/-! ### Correctness of the `std::upper_bound` binary search -/

theorem sorted_getD_mono {xs : List ℤ} (hs : xs.Sorted (· ≤ ·))
    {i j : ℕ} (hij : i ≤ j) (hj : j < xs.length) :
    xs.getD i 0 ≤ xs.getD j 0 := by
  rcases eq_or_lt_of_le hij with rfl | hlt
  · exact le_refl _
  · have hi : i < xs.length := lt_trans hlt hj
    have hrel := (List.pairwise_iff_getElem.mp hs) i j hi hj hlt
    rw [List.getD_eq_getElem xs 0 hi, List.getD_eq_getElem xs 0 hj]
    exact hrel

theorem upperBoundAux_spec (xs : List ℤ) (y : ℤ) (hs : xs.Sorted (· ≤ ·)) :
    ∀ (fuel count first : ℕ), count ≤ fuel → first + count ≤ xs.length →
      first ≤ upperBoundAux xs y fuel first count ∧
      upperBoundAux xs y fuel first count ≤ first + count ∧
      (∀ k, first ≤ k → k < upperBoundAux xs y fuel first count →
        xs.getD k 0 ≤ y) ∧
      (upperBoundAux xs y fuel first count < first + count →
        y < xs.getD (upperBoundAux xs y fuel first count) 0) := by
  intro fuel
  induction fuel with
  | zero =>
    intro count first hcf _
    have hc : count = 0 := by omega
    subst hc
    refine ⟨le_refl _, by simp [upperBoundAux], ?_, ?_⟩
    · intro k hk1 hk2
      simp [upperBoundAux] at hk2
      omega
    · intro hlt
      simp [upperBoundAux] at hlt
  | succ fuel ih =>
    intro count first hcf hlen
    by_cases hc0 : count = 0
    · subst hc0
      refine ⟨le_refl _, by simp [upperBoundAux], ?_, ?_⟩
      · intro k hk1 hk2
        simp [upperBoundAux] at hk2
        omega
      · intro hlt
        simp [upperBoundAux] at hlt
    · have hcpos : 0 < count := Nat.pos_of_ne_zero hc0
      by_cases hlt : y < xs.getD (first + count / 2) 0
      · have hred : upperBoundAux xs y (fuel + 1) first count =
            upperBoundAux xs y fuel first (count / 2) := by
          show (if count = 0 then first
            else if y < xs.getD (first + count / 2) 0 then
              upperBoundAux xs y fuel first (count / 2)
            else
              upperBoundAux xs y fuel (first + count / 2 + 1)
                (count - count / 2 - 1)) =
            upperBoundAux xs y fuel first (count / 2)
          rw [if_neg hc0, if_pos hlt]
        have hrec := ih (count / 2) first (by omega) (by omega)
        rw [hred]
        refine ⟨hrec.1, by omega, hrec.2.2.1, ?_⟩
        intro _
        rcases eq_or_lt_of_le hrec.2.1 with heq | hlt2
        · rw [heq]; exact hlt
        · exact hrec.2.2.2 hlt2
      · have hred : upperBoundAux xs y (fuel + 1) first count =
            upperBoundAux xs y fuel (first + count / 2 + 1)
              (count - count / 2 - 1) := by
          show (if count = 0 then first
            else if y < xs.getD (first + count / 2) 0 then
              upperBoundAux xs y fuel first (count / 2)
            else
              upperBoundAux xs y fuel (first + count / 2 + 1)
                (count - count / 2 - 1)) =
            upperBoundAux xs y fuel (first + count / 2 + 1)
              (count - count / 2 - 1)
          rw [if_neg hc0, if_neg hlt]
        have hstep : count / 2 < count := Nat.div_lt_self hcpos (by omega)
        have hrec := ih (count - count / 2 - 1) (first + count / 2 + 1)
          (by omega) (by omega)
        rw [hred]
        refine ⟨by omega, by omega, ?_, ?_⟩
        · intro k hk1 hk2
          by_cases hk3 : first + count / 2 + 1 ≤ k
          · exact hrec.2.2.1 k hk3 hk2
          · have hkle : k ≤ first + count / 2 := by omega
            have hmid : first + count / 2 < xs.length := by omega
            exact le_trans (sorted_getD_mono hs hkle hmid) (not_lt.mp hlt)
        · intro hres
          exact hrec.2.2.2 (by omega)

theorem upperBound_spec (xs : List ℤ) (y : ℤ) (hs : xs.Sorted (· ≤ ·)) :
    upperBound xs y ≤ xs.length ∧
    (∀ k, k < upperBound xs y → xs.getD k 0 ≤ y) ∧
    (upperBound xs y < xs.length → y < xs.getD (upperBound xs y) 0) := by
  have h := upperBoundAux_spec xs y hs xs.length xs.length 0 (le_refl _)
    (by omega)
  refine ⟨by simpa [upperBound] using h.2.1, ?_, ?_⟩
  · intro k hk
    exact h.2.2.1 k (Nat.zero_le k) hk
  · intro hlt
    exact h.2.2.2 (by simpa using hlt)

theorem findIdx_eq_of_spec {α : Type} (p : α → Bool) (d : α) :
    ∀ (xs : List α) (n : ℕ), n ≤ xs.length →
      (∀ k, k < n → p (xs.getD k d) = false) →
      (n < xs.length → p (xs.getD n d) = true) →
      xs.findIdx p = n := by
  intro xs
  induction xs with
  | nil =>
    intro n hn _ _
    simp only [List.length_nil, Nat.le_zero] at hn
    simp [hn]
  | cons a l ih =>
    intro n hn hbelow hat
    cases n with
    | zero =>
      have hp : p a = true := by simpa using hat (by simp)
      rw [List.findIdx_cons, hp]
      rfl
    | succ m =>
      have hpa : p a = false := by simpa using hbelow 0 (Nat.succ_pos m)
      rw [List.findIdx_cons, hpa]
      simp only [cond_false]
      have hrec := ih m (by simpa using hn)
        (fun k hk => by simpa using hbelow (k + 1) (by omega))
        (fun hm => by simpa using hat (by simpa using hm))
      omega

theorem upperBound_eq_findIdx {xs : List ℤ} (hs : xs.Sorted (· ≤ ·))
    (y : ℤ) :
    upperBound xs y = xs.findIdx (fun a => decide (y < a)) := by
  have h := upperBound_spec xs y hs
  symm
  apply findIdx_eq_of_spec _ (0 : ℤ) xs (upperBound xs y) h.1
  · intro k hk
    exact decide_eq_false (not_lt.mpr (h.2.1 k hk))
  · intro hlt
    exact decide_eq_true (h.2.2 hlt)

theorem upperBound_lt_length {xs : List ℤ} (hs : xs.Sorted (· ≤ ·))
    {y : ℤ} (hex : ∃ a ∈ xs, y < a) :
    upperBound xs y < xs.length := by
  rcases hex with ⟨a, hmem, hya⟩
  by_contra hge
  have hle := (upperBound_spec xs y hs).1
  rcases List.mem_iff_getElem.mp hmem with ⟨n, hn, hget⟩
  have : xs.getD n 0 ≤ y := by
    apply (upperBound_spec xs y hs).2.1
    omega
  rw [List.getD_eq_getElem xs 0 hn, hget] at this
  omega

/-! ### Shape lemmas for the accumulator folds of the source -/

theorem foldlM_addShape {α : Type} {q : ℚ → α → Option ℚ}
    {g : α → Option ℚ}
    (hb : ∀ c a, q c a = (g a).map (fun t => c + t)) :
    ∀ (l : List α) (c0 s : ℚ), l.foldlM q c0 = some s →
      (∀ a ∈ l, (g a).isSome) ∧
      s = c0 + (l.map (fun a => (g a).getD 0)).sum := by
  intro l
  induction l with
  | nil =>
    intro c0 s h
    rw [List.foldlM_nil] at h
    cases h
    exact ⟨by simp, by simp⟩
  | cons a l ih =>
    intro c0 s h
    rw [List.foldlM_cons] at h
    cases hg : g a with
    | none => rw [hb c0 a, hg] at h; exact absurd h (by simp)
    | some t =>
      rw [hb c0 a, hg] at h
      simp only [Option.map_some, Option.bind_eq_bind, Option.some_bind] at h
      have hrec := ih (c0 + t) s h
      refine ⟨?_, ?_⟩
      · intro b hmb
        rcases List.mem_cons.mp hmb with rfl | hm
        · simp [hg]
        · exact hrec.1 b hm
      · rw [List.map_cons, List.sum_cons, hrec.2, hg]
        simp only [Option.getD_some]
        ring

theorem foldlM_countShape {α : Type} {q : ℤ → α → Option ℤ}
    {g : α → Option Bool}
    (hb : ∀ c a, q c a = (g a).map (fun v => if v then c + 1 else c)) :
    ∀ (l : List α) (c0 s : ℤ), l.foldlM q c0 = some s →
      (∀ a ∈ l, (g a).isSome) ∧
      s = c0 + ((l.filter (fun a => (g a).getD false)).length : ℤ) := by
  intro l
  induction l with
  | nil =>
    intro c0 s h
    rw [List.foldlM_nil] at h
    cases h
    exact ⟨by simp, by simp⟩
  | cons a l ih =>
    intro c0 s h
    rw [List.foldlM_cons] at h
    cases hg : g a with
    | none => rw [hb c0 a, hg] at h; exact absurd h (by simp)
    | some t =>
      rw [hb c0 a, hg] at h
      simp only [Option.map_some, Option.bind_eq_bind, Option.some_bind] at h
      have hrec := ih (if t then c0 + 1 else c0) s h
      refine ⟨?_, ?_⟩
      · intro b hmb
        rcases List.mem_cons.mp hmb with rfl | hm
        · simp [hg]
        · exact hrec.1 b hm
      · rw [List.filter_cons, hrec.2, hg]
        cases t with
        | false => simp
        | true =>
          simp only [Option.getD_some, if_true, List.length_cons]
          push_cast
          ring

/-! ### Pure recomputations of the per-step visible-rejection counts -/

/-- The async visible-rejection count at step `i`, recomputed as a pure
function of the decision vector and the horizon vector. -/
def asyncCondP (R : List Bool) (E : List ℤ) (i : ℕ) : ℤ :=
  (((List.range i).filter
    (fun j => R.getD j false && decide (E.getD j 0 - 1 ≤ (i : ℤ) - 1))).length : ℤ)

/-- The dependency visible-rejection count at step `i`, recomputed as a
pure function of the decision vector and the lag vector. -/
def depCondP (R : List Bool) (L : List ℤ) (i : ℕ) : ℤ :=
  if 0 ≤ (i : ℤ) - 1 - L.getD i 0 then
    (((List.range ((i : ℤ) - L.getD i 0).toNat).filter
      (fun j => R.getD j false)).length : ℤ)
  else 0

/-- Number of rejections among the first `i` tests. -/
def visCount (R : List Bool) (i : ℕ) : ℤ :=
  (((List.range i).filter (fun j => R.getD j false)).length : ℤ)

theorem asyncCond_some {R : List Bool} {E : List ℤ} {i : ℕ} {c : ℤ}
    (h : asyncCond R E i = some c) : c = asyncCondP R E i := by
  unfold asyncCond at h
  have hcount := foldlM_countShape
    (g := fun j => (do
      let rj ← R.get? j
      if rj then do
        let ej ← E.get? j
        pure (decide (ej - 1 ≤ (i : ℤ) - 1))
      else
        pure false : Option Bool))
    (q := fun c j => do
      let rj ← R.get? j
      if rj then do
        let ej ← E.get? j
        pure (if ej - 1 ≤ (i : ℤ) - 1 then c + 1 else c)
      else
        pure c)
    (by
      intro cc j
      simp only [List.get?_eq_getElem?]
      cases hr : R[j]? with
      | none => simp [hr]
      | some rj =>
        cases rj with
        | false => simp [hr]
        | true =>
          cases he : E[j]? with
          | none => simp [hr, he]
          | some ej => by_cases hc : ej - 1 ≤ (i : ℤ) - 1 <;> simp [hr, he, hc])
    (List.range i) 0 c h
  rw [hcount.2, asyncCondP]
  have hfil : ∀ j ∈ List.range i,
      ((do
        let rj ← R.get? j
        if rj then do
          let ej ← E.get? j
          pure (decide (ej - 1 ≤ (i : ℤ) - 1))
        else
          pure false : Option Bool)).getD false
      = (R.getD j false && decide (E.getD j 0 - 1 ≤ (i : ℤ) - 1)) := by
    intro j hj
    have hsome := hcount.1 j hj
    simp only [List.get?_eq_getElem?] at hsome ⊢
    cases hr : R[j]? with
    | none => rw [hr] at hsome; simp at hsome
    | some rj =>
      have hrD : R.getD j false = rj :=
        get?_some_getD false (by rw [List.get?_eq_getElem?]; exact hr)
      cases rj with
      | false => simp [hr, hrD]
      | true =>
        cases he : E[j]? with
        | none => rw [hr, he] at hsome; simp at hsome
        | some ej =>
          have heD : E.getD j 0 = ej :=
            get?_some_getD 0 (by rw [List.get?_eq_getElem?]; exact he)
          simp [hr, he, hrD, heD]
  rw [List.filter_congr hfil]
  simp

theorem depCond_some {R : List Bool} {L : List ℤ} {i : ℕ} {c : ℤ}
    (h : depCond R L i = some c) :
    i < L.length ∧ c = depCondP R L i := by
  unfold depCond at h
  cases hl : L.get? i with
  | none => rw [hl] at h; exact absurd h (by simp)
  | some li =>
    rw [hl] at h
    simp only [Option.bind_eq_bind, Option.some_bind] at h
    have hlen : i < L.length := (List.get?_eq_some.mp hl).1
    have hlD : L.getD i 0 = li := get?_some_getD 0 hl
    refine ⟨hlen, ?_⟩
    by_cases hg : 0 ≤ (i : ℤ) - 1 - li
    · rw [if_pos hg] at h
      have hcount := foldlM_countShape (g := fun j => R.get? j)
        (q := fun c j => do
          let rj ← R.get? j
          pure (if rj then c + 1 else c))
        (by
          intro cc j
          simp only [List.get?_eq_getElem?]
          cases hr : R[j]? with
          | none => simp [hr]
          | some rj => simp [hr])
        (List.range ((i : ℤ) - li).toNat) 0 c h
      rw [hcount.2, depCondP, hlD, if_pos hg]
      have hfil : ∀ j ∈ List.range ((i : ℤ) - li).toNat,
          (R.get? j).getD false = R.getD j false := by
        intro j _
        simp [List.getD_eq_getElem?_getD, List.get?_eq_getElem?]
      rw [List.filter_congr hfil]
      simp
    · rw [if_neg hg] at h
      cases h
      rw [depCondP, hlD, if_neg hg]

/-! ### The threshold formula as a pure function -/

/-- The three-way threshold formula as a pure function of the inverted
positions `r` (with natural-number subtraction in the `gammai` indices;
the bridge lemma `stepThreshold_some` shows that on a successful run all
those indices are non-negative and in range). -/
def stepThresholdP (gammai : List ℚ) (w0 alpha : ℚ) (i : ℕ) : List ℕ → ℚ
  | [] => gammai.getD i 0 * w0
  | [r0] => gammai.getD i 0 * w0 + (alpha - w0) * gammai.getD (i - r0 - 1) 0
  | r0 :: rest =>
    gammai.getD i 0 * w0 + (alpha - w0) * gammai.getD (i - r0 - 1) 0 +
      alpha * (rest.map (fun rg => gammai.getD (i - rg - 1) 0)).sum

theorem getZ_nat_idx {gammai : List ℚ} {i : ℕ} {g : ℚ}
    (h : getZ gammai (i : ℤ) = some g) :
    i < gammai.length ∧ gammai.getD i 0 = g := by
  rw [getZ_natCast] at h
  exact ⟨(List.get?_eq_some.mp h).1, get?_some_getD 0 h⟩

theorem getZ_age_idx {gammai : List ℚ} {i rg : ℕ} {g : ℚ}
    (h : getZ gammai ((i : ℤ) - (rg : ℕ) - 1) = some g) :
    rg + 1 ≤ i ∧ i - rg - 1 < gammai.length ∧
      gammai.getD (i - rg - 1) 0 = g := by
  have h2 := getZ_eq_some 0 h
  have hge : rg + 1 ≤ i := by omega
  have ht : ((i : ℤ) - (rg : ℕ) - 1).toNat = i - rg - 1 := by omega
  rw [ht] at h2
  exact ⟨hge, h2.2.1, h2.2.2⟩

theorem stepThreshold_some {gammai : List ℚ} {w0 alpha : ℚ} {i : ℕ}
    {r : List ℕ} {a : ℚ}
    (h : stepThreshold gammai w0 alpha i r = some a) :
    i < gammai.length ∧ (∀ rg ∈ r, rg + 1 ≤ i) ∧
    a = stepThresholdP gammai w0 alpha i r := by
  cases r with
  | nil =>
    have hred : stepThreshold gammai w0 alpha i [] =
        (getZ gammai (i : ℤ)).bind (fun g1 => some (g1 * w0)) := rfl
    rw [hred] at h
    cases hg1 : getZ gammai (i : ℤ) with
    | none => rw [hg1] at h; exact absurd h (by simp)
    | some g1 =>
      rw [hg1] at h
      simp only [Option.some_bind, Option.some_inj] at h
      have h1 := getZ_nat_idx hg1
      exact ⟨h1.1, by simp, by rw [← h, stepThresholdP, h1.2]⟩
  | cons r0 rest =>
    cases rest with
    | nil =>
      have hred : stepThreshold gammai w0 alpha i [r0] =
          (getZ gammai (i : ℤ)).bind (fun g1 =>
            (getZ gammai ((i : ℤ) - (r0 : ℕ) - 1)).bind (fun g2 =>
              some (g1 * w0 + (alpha - w0) * g2))) := rfl
      rw [hred] at h
      cases hg1 : getZ gammai (i : ℤ) with
      | none => rw [hg1] at h; exact absurd h (by simp)
      | some g1 =>
        rw [hg1] at h
        cases hg2 : getZ gammai ((i : ℤ) - (r0 : ℕ) - 1) with
        | none => rw [hg2] at h; exact absurd h (by simp)
        | some g2 =>
          rw [hg2] at h
          simp only [Option.some_bind, Option.some_inj] at h
          have h1 := getZ_nat_idx hg1
          have h2 := getZ_age_idx hg2
          refine ⟨h1.1, ?_, ?_⟩
          · intro rg hrg
            rcases List.mem_singleton.mp hrg with rfl
            exact h2.1
          · rw [← h, stepThresholdP, h1.2, h2.2.2]
    | cons r1 rest2 =>
      have hred : stepThreshold gammai w0 alpha i (r0 :: r1 :: rest2) =
          (getZ gammai (i : ℤ)).bind (fun g1 =>
            (getZ gammai ((i : ℤ) - (r0 : ℕ) - 1)).bind (fun g2 =>
              ((r1 :: rest2).foldlM
                (fun acc rg =>
                  (getZ gammai ((i : ℤ) - (rg : ℕ) - 1)).bind
                    (fun g => some (acc + g))) 0).bind (fun s =>
                some (g1 * w0 + (alpha - w0) * g2 + alpha * s)))) := rfl
      rw [hred] at h
      cases hg1 : getZ gammai (i : ℤ) with
      | none => rw [hg1] at h; exact absurd h (by simp)
      | some g1 =>
        rw [hg1] at h
        cases hg2 : getZ gammai ((i : ℤ) - (r0 : ℕ) - 1) with
        | none => rw [hg2] at h; exact absurd h (by simp)
        | some g2 =>
          rw [hg2] at h
          simp only [Option.some_bind] at h
          cases hsf : (r1 :: rest2).foldlM
              (fun acc rg =>
                (getZ gammai ((i : ℤ) - (rg : ℕ) - 1)).bind
                  (fun g => some (acc + g))) 0 with
          | none => rw [hsf] at h; exact absurd h (by simp)
          | some s =>
            rw [hsf] at h
            simp only [Option.some_bind, Option.some_inj] at h
            have h1 := getZ_nat_idx hg1
            have h2 := getZ_age_idx hg2
            have hsum := foldlM_addShape
              (g := fun rg => getZ gammai ((i : ℤ) - (rg : ℕ) - 1))
              (q := fun acc rg =>
                (getZ gammai ((i : ℤ) - (rg : ℕ) - 1)).bind
                  (fun g => some (acc + g)))
              (by
                intro c rg
                cases hg : getZ gammai ((i : ℤ) - (rg : ℕ) - 1) with
                | none => simp [hg]
                | some g => simp [hg])
              (r1 :: rest2) 0 s hsf
            have hsome : ∀ rg ∈ r1 :: rest2,
                (getZ gammai ((i : ℤ) - (rg : ℕ) - 1)).isSome :=
              fun rg hm => hsum.1 rg hm
            have hsum2 : s = 0 + ((r1 :: rest2).map
                (fun rg => (getZ gammai ((i : ℤ) - (rg : ℕ) - 1)).getD 0)).sum :=
              hsum.2
            have hmap : (r1 :: rest2).map
                  (fun rg => (getZ gammai ((i : ℤ) - (rg : ℕ) - 1)).getD 0)
                = (r1 :: rest2).map
                  (fun rg => gammai.getD (i - rg - 1) 0) := by
              apply List.map_congr_left
              intro rg hrg
              have hsg := hsome rg hrg
              cases hg : getZ gammai ((i : ℤ) - (rg : ℕ) - 1) with
              | none => rw [hg] at hsg; simp at hsg
              | some g =>
                show (some g).getD 0 = gammai.getD (i - rg - 1) 0
                simp only [Option.getD_some]
                rw [← (getZ_age_idx hg).2.2]
            refine ⟨h1.1, ?_, ?_⟩
            · intro rg hrg
              rcases List.mem_cons.mp hrg with rfl | hm
              · exact h2.1
              · have hsg := hsome rg hm
                cases hg : getZ gammai ((i : ℤ) - (rg : ℕ) - 1) with
                | none => rw [hg] at hsg; simp at hsg
                | some g => exact (getZ_age_idx hg).1
            · rw [← h, hsum2, hmap]
              simp only [stepThresholdP, zero_add]
              rw [h1.2, h2.2.2]

/-! ### Claim C3: the cumulative-count inversion -/

/-- C3: applied to a non-decreasing integer sequence, the shared
cumulative-count inversion returns, for every count level `y` from `0` to
the maximum count minus one, the leftmost position whose cumulative count
strictly exceeds `y`: every position to the left has count at most `y`,
and the returned position has count strictly greater than `y`. -/
theorem claim_C3_inversion_leftmost (xs : List ℤ)
    (hs : xs.Sorted (· ≤ ·)) :
    ∀ y < (vecMax xs).toNat,
      ∃ p, (invertCounts xs).get? y = some p ∧ p < xs.length ∧
        (∀ k < p, xs.getD k 0 ≤ (y : ℤ)) ∧ (y : ℤ) < xs.getD p 0 := by
  intro y hy
  have hxs : xs ≠ [] := by
    intro hemp
    subst hemp
    simp [vecMax] at hy
  have hymax : (y : ℤ) < vecMax xs := by omega
  have hex : ∃ a ∈ xs, (y : ℤ) < a := ⟨vecMax xs, vecMax_mem hxs, hymax⟩
  have hlt := upperBound_lt_length hs hex
  refine ⟨upperBound xs (y : ℤ), ?_, hlt,
    fun k hk => (upperBound_spec xs (y : ℤ) hs).2.1 k hk,
    (upperBound_spec xs (y : ℤ) hs).2.2 hlt⟩
  rw [invertCounts, List.get?_eq_getElem?, List.getElem?_map]
  rw [List.getElem?_range hy]
  rfl

/-- Witness for C3 at a concrete sorted sequence. -/
theorem claim_C3_inversion_leftmost_witness :
    ∃ p, (invertCounts [0, 1, 1, 3]).get? 1 = some p ∧
      p < ([0, 1, 1, 3] : List ℤ).length ∧
      (∀ k < p, ([0, 1, 1, 3] : List ℤ).getD k 0 ≤ (1 : ℤ)) ∧
      (1 : ℤ) < ([0, 1, 1, 3] : List ℤ).getD p 0 :=
  claim_C3_inversion_leftmost [0, 1, 1, 3] (by decide) 1 (by decide)

/-! ### Characterization of a successful async run -/

theorem getD_set_ne {α : Type} (l : List α) (i j : ℕ) (v d : α)
    (h : j ≠ i) : (l.set i v).getD j d = l.getD j d := by
  simp [List.getD_eq_getElem?_getD, List.getElem?_set_ne (Ne.symm h)]

theorem getD_set_self {α : Type} (l : List α) (i : ℕ) (v d : α)
    (h : i < l.length) : (l.set i v).getD i d = v := by
  simp [List.getD_eq_getElem?_getD, List.getElem?_set_eq_of_lt v h]

/-- Writing a decision at step `i` does not change the recomputed
visible-rejection count of any step `k ≤ i` (all its reads are below `k`). -/
theorem asyncCondP_set_stable (R : List Bool) (E : List ℤ) (v : Bool)
    {k i : ℕ} (hk : k ≤ i) :
    asyncCondP (R.set i v) E k = asyncCondP R E k := by
  unfold asyncCondP
  have hfil : List.filter
      (fun j => (R.set i v).getD j false &&
        decide (E.getD j 0 - 1 ≤ (k : ℤ) - 1)) (List.range k)
      = List.filter
      (fun j => R.getD j false &&
        decide (E.getD j 0 - 1 ≤ (k : ℤ) - 1)) (List.range k) := by
    apply List.filter_congr
    intro j hj
    have hlt : j < k := List.mem_range.mp hj
    rw [getD_set_ne R i j v false (by omega)]
  rw [hfil]

/-- The per-step state invariant of `lordstar_async_faster`, tying each
already-written threshold and decision to the pure recomputation from
the final decision vector. -/
def AsyncInv (pval : List ℚ) (E : List ℤ) (gammai : List ℚ)
    (w0 alpha : ℚ) (i : ℕ) (st : SState) : Prop :=
  st.alphai.length = pval.length ∧ st.R.length = pval.length ∧
  st.hist = (List.range' 1 (i - 1)).map (fun k => asyncCondP st.R E k) ∧
  st.alphai.getD 0 0 = gammai.getD 0 0 * w0 ∧
  (∀ j, j < i → j < pval.length →
    st.R.getD j false = decide (pval.getD j 0 ≤ st.alphai.getD j 0)) ∧
  (∀ j, 1 ≤ j → j < i →
    st.alphai.getD j 0 = stepThresholdP gammai w0 alpha j
      (invertCounts ((List.range' 1 j).map (fun k => asyncCondP st.R E k))))

theorem asyncStep_preserves {pval : List ℚ} {E : List ℤ}
    {gammai : List ℚ} {w0 alpha : ℚ} {j : ℕ} {st st' : SState}
    (hj1 : 1 ≤ j) (hjN : j < pval.length)
    (hstep : asyncStep pval E gammai w0 alpha st j = some st')
    (hinv : AsyncInv pval E gammai w0 alpha j st) :
    AsyncInv pval E gammai w0 alpha (j + 1) st' := by
  unfold asyncStep at hstep
  cases hc : asyncCond st.R E j with
  | none => rw [hc] at hstep; exact absurd hstep (by simp)
  | some cond =>
    rw [hc] at hstep
    simp only [Option.bind_eq_bind, Option.some_bind, guard_invert] at hstep
    cases ht : stepThreshold gammai w0 alpha j
        (invertCounts (st.hist ++ [cond])) with
    | none => rw [ht] at hstep; exact absurd hstep (by simp)
    | some ai =>
      rw [ht] at hstep
      simp only [Option.some_bind] at hstep
      cases hp : pval.get? j with
      | none => rw [hp] at hstep; exact absurd hstep (by simp)
      | some pi =>
        rw [hp] at hstep
        simp only [Option.some_bind, Option.pure_def, Option.some_inj] at hstep
        obtain ⟨hA, hR, hH, h0, hdec, hth⟩ := hinv
        have hcond : cond = asyncCondP st.R E j := asyncCond_some hc
        subst hstep
        have hstab : ∀ k ≤ j, asyncCondP (st.R.set j (decide (pi ≤ ai))) E k
            = asyncCondP st.R E k :=
          fun k hk => asyncCondP_set_stable st.R E _ hk
        have hhist : st.hist ++ [cond] =
            (List.range' 1 j).map
              (fun k => asyncCondP (st.R.set j (decide (pi ≤ ai))) E k) := by
          obtain ⟨m, rfl⟩ : ∃ m, j = m + 1 := ⟨j - 1, by omega⟩
          rw [List.range'_concat, List.map_append]
          have hm1 : 1 + 1 * m = m + 1 := by omega
          rw [hm1]
          have hmap : (List.range' 1 m).map
              (fun k => asyncCondP (st.R.set (m + 1) (decide (pi ≤ ai))) E k)
              = (List.range' 1 m).map (fun k => asyncCondP st.R E k) := by
            apply List.map_congr_left
            intro k hkm
            have hkr := List.mem_range'_1.mp hkm
            exact hstab k (by omega)
          rw [hmap]
          have hH2 : st.hist =
              (List.range' 1 m).map (fun k => asyncCondP st.R E k) := by
            simpa using hH
          rw [← hH2]
          simp [hcond, hstab (m + 1) (le_refl _)]
        refine ⟨by simpa using hA, by simpa using hR, by simpa using hhist,
          ?_, ?_, ?_⟩
        · rw [getD_set_ne _ _ _ _ _ (by omega)]
          exact h0
        · intro jj hjj hjjN
          by_cases hjje : jj = j
          · subst hjje
            rw [getD_set_self _ _ _ _ (by omega),
              getD_set_self _ _ _ _ (by omega),
              get?_some_getD 0 hp]
          · rw [getD_set_ne _ _ _ _ _ hjje, getD_set_ne _ _ _ _ _ hjje]
            exact hdec jj (by omega) hjjN
        · intro jj hjj1 hjj2
          by_cases hjje : jj = j
          · subst hjje
            rw [getD_set_self _ _ _ _ (by omega), ← hhist]
            have hts := stepThreshold_some ht
            exact hts.2.2
          · rw [getD_set_ne _ _ _ _ _ hjje]
            have hmap2 : (List.range' 1 jj).map
                (fun k => asyncCondP (st.R.set j (decide (pi ≤ ai))) E k)
                = (List.range' 1 jj).map (fun k => asyncCondP st.R E k) := by
              apply List.map_congr_left
              intro k hkm
              have hkr := List.mem_range'_1.mp hkm
              exact hstab k (by omega)
            rw [hmap2]
            exact hth jj hjj1 (by omega)

theorem async_run_spec {pval : List ℚ} {E : List ℤ} {gammai : List ℚ}
    {w0 alpha : ℚ} {A : List ℚ} {R : List Bool}
    (h : lordstar_async_faster pval E gammai w0 alpha = some (A, R)) :
    A.length = pval.length ∧ R.length = pval.length ∧ 2 ≤ pval.length ∧
    A.getD 0 0 = gammai.getD 0 0 * w0 ∧
    (∀ i, i < pval.length →
      R.getD i false = decide (pval.getD i 0 ≤ A.getD i 0)) ∧
    (∀ i, 1 ≤ i → i < pval.length →
      A.getD i 0 = stepThresholdP gammai w0 alpha i
        (invertCounts ((List.range' 1 i).map (fun k => asyncCondP R E k)))) := by
  unfold lordstar_async_faster at h
  cases hg0 : gammai.get? 0 with
  | none => rw [hg0] at h; exact absurd h (by simp)
  | some g0 =>
    rw [hg0] at h
    simp only [Option.bind_eq_bind, Option.some_bind] at h
    cases hp0 : pval.get? 0 with
    | none => rw [hp0] at h; exact absurd h (by simp)
    | some p0 =>
      rw [hp0] at h
      simp only [Option.some_bind] at h
      by_cases hN : 1 < pval.length
      · rw [if_pos hN] at h
        cases hfold : (List.range' 1 (pval.length - 1)).foldlM
            (asyncStep pval E gammai w0 alpha)
            ⟨(List.replicate pval.length (0 : ℚ)).set 0 (g0 * w0),
             (List.replicate pval.length false).set 0 (decide (p0 ≤ g0 * w0)),
             []⟩ with
        | none => rw [hfold] at h; exact absurd h (by simp)
        | some stF =>
          rw [hfold] at h
          simp only [Option.some_bind, Option.pure_def, Option.some_inj,
            Prod.mk.injEq] at h
          have hseed : AsyncInv pval E gammai w0 alpha 1
              ⟨(List.replicate pval.length (0 : ℚ)).set 0 (g0 * w0),
               (List.replicate pval.length false).set 0
                 (decide (p0 ≤ g0 * w0)), []⟩ := by
            have hNpos : 0 < pval.length := by omega
            have hgD : gammai.getD 0 0 = g0 := get?_some_getD 0 hg0
            have hpD : pval.getD 0 0 = p0 := get?_some_getD 0 hp0
            refine ⟨by simp, by simp, rfl, ?_, ?_, ?_⟩
            · rw [getD_set_self _ _ _ _ (by simpa using hNpos), hgD]
            · intro j hj1 _
              have : j = 0 := by omega
              subst this
              rw [getD_set_self _ _ _ _ (by simpa using hNpos),
                getD_set_self _ _ _ _ (by simpa using hNpos), hpD]
            · intro j hj1 hj2
              omega
          have hfin := foldlM_range_inv
            (asyncStep pval E gammai w0 alpha)
            (AsyncInv pval E gammai w0 alpha)
            (pval.length - 1) 1 _ stF hfold hseed
            (fun j s s' hj1 hj2 hs hP =>
              asyncStep_preserves hj1 (by omega) hs hP)
          have hNsub : 1 + (pval.length - 1) = pval.length := by omega
          rw [hNsub] at hfin
          obtain ⟨hA, hR, hH, h0, hdec, hth⟩ := hfin
          obtain ⟨rfl, rfl⟩ := h
          exact ⟨hA, hR, by omega, h0, fun i hi => hdec i hi hi,
            fun i hi1 hi2 => hth i hi1 hi2⟩
      · rw [if_neg hN] at h
        exact absurd h (by simp)

/-! ### Characterization of a successful dependency run -/

/-- The basic per-step invariant of `lordstar_dep_faster`: lengths, the
seeded entry 0, and the decision rule for every written entry. -/
def DepInv (pval : List ℚ) (gammai : List ℚ) (w0 : ℚ) (i : ℕ)
    (st : SState) : Prop :=
  st.alphai.length = pval.length ∧ st.R.length = pval.length ∧
  st.alphai.getD 0 0 = gammai.getD 0 0 * w0 ∧
  (∀ j, j < i → j < pval.length →
    st.R.getD j false = decide (pval.getD j 0 ≤ st.alphai.getD j 0))

theorem depStep_preserves {pval : List ℚ} {L : List ℤ} {gammai : List ℚ}
    {w0 alpha : ℚ} {j : ℕ} {st st' : SState}
    (hj1 : 1 ≤ j) (hjN : j < pval.length)
    (hstep : depStep pval L gammai w0 alpha st j = some st')
    (hinv : DepInv pval gammai w0 j st) :
    DepInv pval gammai w0 (j + 1) st' := by
  unfold depStep at hstep
  cases hc : depCond st.R L j with
  | none => rw [hc] at hstep; exact absurd hstep (by simp)
  | some cond =>
    rw [hc] at hstep
    simp only [Option.bind_eq_bind, Option.some_bind] at hstep
    cases ht : stepThreshold gammai w0 alpha j
        (invertCounts (st.hist ++ [cond])) with
    | none => rw [ht] at hstep; exact absurd hstep (by simp)
    | some ai =>
      rw [ht] at hstep
      simp only [Option.some_bind] at hstep
      cases hp : pval.get? j with
      | none => rw [hp] at hstep; exact absurd hstep (by simp)
      | some pi =>
        rw [hp] at hstep
        simp only [Option.some_bind, Option.pure_def, Option.some_inj] at hstep
        obtain ⟨hA, hR, h0, hdec⟩ := hinv
        subst hstep
        refine ⟨by simpa using hA, by simpa using hR, ?_, ?_⟩
        · rw [getD_set_ne _ _ _ _ _ (by omega)]
          exact h0
        · intro jj hjj hjjN
          by_cases hjje : jj = j
          · subst hjje
            rw [getD_set_self _ _ _ _ (by omega),
              getD_set_self _ _ _ _ (by omega), get?_some_getD 0 hp]
          · rw [getD_set_ne _ _ _ _ _ hjje, getD_set_ne _ _ _ _ _ hjje]
            exact hdec jj (by omega) hjjN

theorem dep_run_spec {pval : List ℚ} {L : List ℤ} {gammai : List ℚ}
    {w0 alpha : ℚ} {A : List ℚ} {R : List Bool}
    (h : lordstar_dep_faster pval L gammai w0 alpha = some (A, R)) :
    A.length = pval.length ∧ R.length = pval.length ∧ 1 ≤ pval.length ∧
    A.getD 0 0 = gammai.getD 0 0 * w0 ∧
    (∀ i, i < pval.length →
      R.getD i false = decide (pval.getD i 0 ≤ A.getD i 0)) := by
  unfold lordstar_dep_faster at h
  cases hg0 : gammai.get? 0 with
  | none => rw [hg0] at h; exact absurd h (by simp)
  | some g0 =>
    rw [hg0] at h
    simp only [Option.bind_eq_bind, Option.some_bind] at h
    cases hp0 : pval.get? 0 with
    | none => rw [hp0] at h; exact absurd h (by simp)
    | some p0 =>
      rw [hp0] at h
      simp only [Option.some_bind] at h
      cases hfold : (List.range' 1 (pval.length - 1)).foldlM
          (depStep pval L gammai w0 alpha)
          ⟨(List.replicate pval.length (0 : ℚ)).set 0 (g0 * w0),
           (List.replicate pval.length false).set 0 (decide (p0 ≤ g0 * w0)),
           []⟩ with
      | none => rw [hfold] at h; exact absurd h (by simp)
      | some stF =>
        rw [hfold] at h
        simp only [Option.some_bind, Option.pure_def, Option.some_inj,
          Prod.mk.injEq] at h
        have hNpos : 0 < pval.length := (List.get?_eq_some.mp hp0).1
        have hgD : gammai.getD 0 0 = g0 := get?_some_getD 0 hg0
        have hpD : pval.getD 0 0 = p0 := get?_some_getD 0 hp0
        have hseed : DepInv pval gammai w0 1
            ⟨(List.replicate pval.length (0 : ℚ)).set 0 (g0 * w0),
             (List.replicate pval.length false).set 0
               (decide (p0 ≤ g0 * w0)), []⟩ := by
          refine ⟨by simp, by simp, ?_, ?_⟩
          · rw [getD_set_self _ _ _ _ (by simpa using hNpos), hgD]
          · intro j hj1 _
            have : j = 0 := by omega
            subst this
            rw [getD_set_self _ _ _ _ (by simpa using hNpos),
              getD_set_self _ _ _ _ (by simpa using hNpos), hpD]
        have hfin := foldlM_range_inv
          (depStep pval L gammai w0 alpha) (DepInv pval gammai w0)
          (pval.length - 1) 1 _ stF hfold hseed
          (fun j s s' hj1 hj2 hs hP => depStep_preserves hj1 (by omega) hs hP)
        have hNsub : 1 + (pval.length - 1) = pval.length := by omega
        rw [hNsub] at hfin
        obtain ⟨hA, hR, h0, hdec⟩ := hfin
        obtain ⟨rfl, rfl⟩ := h
        exact ⟨hA, hR, hNpos, h0, fun i hi => hdec i hi hi⟩

/-! ### Non-negativity of thresholds -/

theorem getD_nonneg {gammai : List ℚ} (hg : ∀ g ∈ gammai, 0 ≤ g) (n : ℕ) :
    0 ≤ gammai.getD n 0 := by
  rcases lt_or_ge n gammai.length with hlt | hge
  · rw [List.getD_eq_getElem gammai 0 hlt]
    exact hg _ (List.getElem_mem hlt)
  · rw [List.getD_eq_default gammai 0 hge]

theorem stepThresholdP_nonneg (gammai : List ℚ) (w0 alpha : ℚ) (i : ℕ)
    (r : List ℕ) (hg : ∀ g ∈ gammai, 0 ≤ g) (hw : 0 ≤ w0)
    (hwa : w0 ≤ alpha) : 0 ≤ stepThresholdP gammai w0 alpha i r := by
  have halpha : 0 ≤ alpha := le_trans hw hwa
  have hd : 0 ≤ alpha - w0 := by linarith
  cases r with
  | nil => exact mul_nonneg (getD_nonneg hg i) hw
  | cons r0 rest =>
    cases rest with
    | nil =>
      exact add_nonneg (mul_nonneg (getD_nonneg hg i) hw)
        (mul_nonneg hd (getD_nonneg hg _))
    | cons r1 rest2 =>
      refine add_nonneg (add_nonneg (mul_nonneg (getD_nonneg hg i) hw)
        (mul_nonneg hd (getD_nonneg hg _))) (mul_nonneg halpha ?_)
      apply List.sum_nonneg
      intro x hx
      rcases List.mem_map.mp hx with ⟨rg, _, rfl⟩
      exact getD_nonneg hg _

theorem async_run_nonneg {pval : List ℚ} {E : List ℤ} {gammai : List ℚ}
    {w0 alpha : ℚ} {A : List ℚ} {R : List Bool}
    (h : lordstar_async_faster pval E gammai w0 alpha = some (A, R))
    (hg : ∀ g ∈ gammai, 0 ≤ g) (hw : 0 ≤ w0) (hwa : w0 ≤ alpha) :
    ∀ i, 0 ≤ A.getD i 0 := by
  obtain ⟨hA, _, hN, h0, _, hth⟩ := async_run_spec h
  intro i
  rcases lt_or_ge i pval.length with hlt | hge
  · rcases Nat.eq_zero_or_pos i with rfl | hpos
    · rw [h0]
      exact mul_nonneg (getD_nonneg hg 0) hw
    · rw [hth i hpos hlt]
      exact stepThresholdP_nonneg gammai w0 alpha i _ hg hw hwa
  · rw [List.getD_eq_default A 0 (by omega)]

/-- The non-negativity invariant threaded through a dependency run. -/
theorem dep_run_nonneg {pval : List ℚ} {L : List ℤ} {gammai : List ℚ}
    {w0 alpha : ℚ} {A : List ℚ} {R : List Bool}
    (h : lordstar_dep_faster pval L gammai w0 alpha = some (A, R))
    (hg : ∀ g ∈ gammai, 0 ≤ g) (hw : 0 ≤ w0) (hwa : w0 ≤ alpha) :
    ∀ i, 0 ≤ A.getD i 0 := by
  unfold lordstar_dep_faster at h
  cases hg0 : gammai.get? 0 with
  | none => rw [hg0] at h; exact absurd h (by simp)
  | some g0 =>
    rw [hg0] at h
    simp only [Option.bind_eq_bind, Option.some_bind] at h
    cases hp0 : pval.get? 0 with
    | none => rw [hp0] at h; exact absurd h (by simp)
    | some p0 =>
      rw [hp0] at h
      simp only [Option.some_bind] at h
      cases hfold : (List.range' 1 (pval.length - 1)).foldlM
          (depStep pval L gammai w0 alpha)
          ⟨(List.replicate pval.length (0 : ℚ)).set 0 (g0 * w0),
           (List.replicate pval.length false).set 0 (decide (p0 ≤ g0 * w0)),
           []⟩ with
      | none => rw [hfold] at h; exact absurd h (by simp)
      | some stF =>
        rw [hfold] at h
        simp only [Option.some_bind, Option.pure_def, Option.some_inj,
          Prod.mk.injEq] at h
        have hgD : gammai.getD 0 0 = g0 := get?_some_getD 0 hg0
        have hP := foldlM_inv (f := depStep pval L gammai w0 alpha)
          (fun st => ∀ k, 0 ≤ st.alphai.getD k 0) _ _ stF hfold
          (by
            intro k
            by_cases hk : k = 0
            · subst hk
              rcases lt_or_ge 0 pval.length with hNp | hNp
              · rw [getD_set_self _ _ _ _ (by simpa using hNp)]
                exact mul_nonneg (hgD ▸ getD_nonneg hg 0) hw
              · have hlen0 : ((List.replicate pval.length (0 : ℚ)).set 0
                    (g0 * w0)).length ≤ 0 := by
                  simp only [List.length_set, List.length_replicate]
                  omega
                rw [List.getD_eq_default _ 0 hlen0]
            · rw [getD_set_ne _ _ _ _ _ hk]
              rcases lt_or_ge k pval.length with hkp | hkp
              · rw [List.getD_eq_getElem _ 0 (by simpa using hkp)]
                simp
              · rw [List.getD_eq_default _ 0 (by simpa using hkp)])
          (by
            intro s j s' hm hs hPs
            unfold depStep at hs
            cases hc : depCond s.R L j with
            | none => rw [hc] at hs; exact absurd hs (by simp)
            | some cond =>
              rw [hc] at hs
              simp only [Option.bind_eq_bind, Option.some_bind] at hs
              cases ht : stepThreshold gammai w0 alpha j
                  (invertCounts (s.hist ++ [cond])) with
              | none => rw [ht] at hs; exact absurd hs (by simp)
              | some ai =>
                rw [ht] at hs
                simp only [Option.some_bind] at hs
                cases hp : pval.get? j with
                | none => rw [hp] at hs; exact absurd hs (by simp)
                | some pi =>
                  rw [hp] at hs
                  simp only [Option.some_bind, Option.pure_def,
                    Option.some_inj] at hs
                  subst hs
                  intro k
                  by_cases hk : k = j
                  · subst hk
                    rcases lt_or_ge k s.alphai.length with hkl | hkl
                    · rw [getD_set_self _ _ _ _ hkl]
                      rw [(stepThreshold_some ht).2.2]
                      exact stepThresholdP_nonneg gammai w0 alpha k _ hg hw hwa
                    · rw [List.getD_eq_default _ 0 (by simpa using hkl)]
                  · rw [getD_set_ne _ _ _ _ _ hk]
                    exact hPs k)
        obtain ⟨rfl, rfl⟩ := h
        exact hP

/-! ### Matrix cell lemmas for the batch procedure -/

/-- Read one matrix cell with a default. -/
def cell {α : Type} (m : List (List α)) (b x : ℕ) (d : α) : α :=
  (m.getD b []).getD x d

theorem cell_setCell_self {α : Type} (m : List (List α)) (b x : ℕ)
    (v d : α) (hb : b < m.length) (hx : x < (m.getD b []).length) :
    cell (setCell m b x v) b x d = v := by
  unfold cell setCell
  rw [getD_set_self _ _ _ _ hb, getD_set_self _ _ _ _ hx]

theorem cell_setCell_ne {α : Type} (m : List (List α)) (b x b' x' : ℕ)
    (v d : α) (h : b' ≠ b ∨ x' ≠ x) :
    cell (setCell m b x v) b' x' d = cell m b' x' d := by
  unfold cell setCell
  by_cases hb' : b' = b
  · subst hb'
    have hx : x' ≠ x := by tauto
    rcases lt_or_ge b' m.length with hbl | hbl
    · rw [getD_set_self _ _ _ _ hbl, getD_set_ne _ _ _ _ _ hx]
    · have h1 : (m.set b' ((m.getD b' []).set x v)).getD b' [] = [] :=
        List.getD_eq_default _ _ (by simpa using hbl)
      have h2 : m.getD b' [] = [] := List.getD_eq_default _ _ hbl
      rw [h1, h2]
  · rw [getD_set_ne _ _ _ _ _ hb']

theorem length_setCell {α : Type} (m : List (List α)) (b x : ℕ) (v : α) :
    (setCell m b x v).length = m.length := by
  simp [setCell]

theorem rows_setCell {α : Type} {m : List (List α)} {M : ℕ} (b x : ℕ)
    (v : α) (hb : b < m.length) (hrows : ∀ row ∈ m, row.length = M) :
    ∀ row ∈ setCell m b x v, row.length = M := by
  intro row hrow
  rcases List.mem_or_eq_of_mem_set hrow with hm | rfl
  · exact hrows row hm
  · rw [List.length_set, List.getD_eq_getElem _ _ hb]
    exact hrows _ (List.getElem_mem hb)

/-- Row lengths of the batch matrices. -/
def BatchDims (B M : ℕ) (st : BState) : Prop :=
  st.A.length = B ∧ st.R.length = B ∧
  (∀ row ∈ st.A, row.length = M) ∧ (∀ row ∈ st.R, row.length = M)

/-! ### Characterization of a successful batch run -/

theorem batchBody_some {pval : List ℚ} {batchsum : List ℤ}
    {gammai : List ℚ} {w0 alpha : ℚ} {b : ℕ} {rcum : List ℤ}
    {st st' : BState} {x : ℕ}
    (h : batchBody pval batchsum gammai w0 alpha b rcum st x = some st') :
    ∃ ai pi,
      batchThreshold batchsum gammai w0 alpha
        (batchsum.getD (b - 1) 0 + (x : ℕ))
        (if 0 < vecMax rcum then invertCounts rcum else []) = some ai ∧
      st' = ⟨setCell st.A b x ai, setCell st.R b x (decide (pi ≤ ai))⟩ ∧
      pi = pval.getD ((batchsum.getD (b - 1) 0 + (x : ℕ)).toNat) 0 := by
  unfold batchBody at h
  rcases Option.bind_eq_some.mp h with ⟨bs, hbs, h⟩
  rcases Option.bind_eq_some.mp h with ⟨ai, hai, h⟩
  rcases Option.bind_eq_some.mp h with ⟨pi, hpi, h⟩
  have hbsD : batchsum.getD (b - 1) 0 = bs := get?_some_getD 0 hbs
  refine ⟨ai, pi, ?_, ?_, ?_⟩
  · rw [hbsD]; exact hai
  · cases h; rfl
  · rw [hbsD]
    exact ((getZ_eq_some 0 hpi).2.2).symm

theorem getZ_mem_nonneg {gammai : List ℚ} {t : ℤ} {g : ℚ}
    (h : getZ gammai t = some g) (hg : ∀ a ∈ gammai, 0 ≤ a) : 0 ≤ g := by
  unfold getZ at h
  split at h
  · exact hg g (get?_some_mem h)
  · exact absurd h (by simp)

theorem batchThreshold_nonneg {batchsum : List ℤ} {gammai : List ℚ}
    {w0 alpha : ℚ} {gidx : ℤ} {r : List ℕ} {ai : ℚ}
    (h : batchThreshold batchsum gammai w0 alpha gidx r = some ai)
    (hg : ∀ a ∈ gammai, 0 ≤ a) (hw : 0 ≤ w0) (hwa : w0 ≤ alpha) :
    0 ≤ ai := by
  have halpha : 0 ≤ alpha := le_trans hw hwa
  have hd : 0 ≤ alpha - w0 := by linarith
  unfold batchThreshold at h
  by_cases hr1 : r.length ≤ 1
  · rw [if_pos hr1] at h
    by_cases hr0 : 0 < r.length
    · rw [if_pos hr0] at h
      rcases Option.bind_eq_some.mp h with ⟨g1, hg1, h⟩
      rcases Option.bind_eq_some.mp h with ⟨bs0, hbs0, h⟩
      rcases Option.bind_eq_some.mp h with ⟨g2, hg2, h⟩
      cases h
      exact add_nonneg (mul_nonneg (getZ_mem_nonneg hg1 hg) hw)
        (mul_nonneg hd (getZ_mem_nonneg hg2 hg))
    · rw [if_neg hr0] at h
      rcases Option.bind_eq_some.mp h with ⟨g1, hg1, h⟩
      cases h
      exact mul_nonneg (getZ_mem_nonneg hg1 hg) hw
  · rw [if_neg hr1] at h
    rcases Option.bind_eq_some.mp h with ⟨g1, hg1, h⟩
    rcases Option.bind_eq_some.mp h with ⟨bs0, hbs0, h⟩
    rcases Option.bind_eq_some.mp h with ⟨s, hs, h⟩
    rcases Option.bind_eq_some.mp h with ⟨g2, hg2, h⟩
    cases h
    have hsnn : 0 ≤ s := by
      have := foldlM_inv (f := fun acc rg => do
          let bsg ← batchsum.get? rg
          let g ← getZ gammai (gidx - bsg)
          pure (acc + g))
        (fun acc => 0 ≤ acc) (r.drop 1) 0 s hs (le_refl 0)
        (by
          intro acc rg acc' _ hstep hacc
          rcases Option.bind_eq_some.mp hstep with ⟨bsg, hbsg, hstep⟩
          rcases Option.bind_eq_some.mp hstep with ⟨g, hgg, hstep⟩
          cases hstep
          exact add_nonneg hacc (getZ_mem_nonneg hgg hg))
      exact this
    exact add_nonneg (add_nonneg (mul_nonneg (getZ_mem_nonneg hg1 hg) hw)
      (mul_nonneg hd (getZ_mem_nonneg hg2 hg))) (mul_nonneg halpha hsnn)

/-- The per-batch invariant of `lordstar_batch_faster`: matrix shapes,
the seeded batch 0, and the decision rule for every written cell. -/
def BatchInv (pval : List ℚ) (batch batchsum : List ℤ) (gammai : List ℚ)
    (w0 : ℚ) (b : ℕ) (st : BState) : Prop :=
  BatchDims batch.length (vecMax batch).toNat st ∧
  (∀ x, x < (batch.getD 0 0).toNat →
    cell st.A 0 x 0 = gammai.getD x 0 * w0 ∧
    cell st.R 0 x false = decide (pval.getD x 0 ≤ cell st.A 0 x 0)) ∧
  (∀ b', 1 ≤ b' → b' < b → ∀ x, x < (batch.getD b' 0).toNat →
    cell st.R b' x false = decide
      (pval.getD ((batchsum.getD (b' - 1) 0 + (x : ℕ)).toNat) 0
        ≤ cell st.A b' x 0))

theorem getD_le_vecMax {batch : List ℤ} {b : ℕ} (hb : b < batch.length) :
    batch.getD b 0 ≤ vecMax batch := by
  rw [List.getD_eq_getElem _ _ hb]
  exact le_vecMax (List.getElem_mem hb)

theorem batchOuter_preserves {pval : List ℚ} {batch batchsum : List ℤ}
    {gammai : List ℚ} {w0 alpha : ℚ} {b : ℕ} {st st' : BState}
    (hb1 : 1 ≤ b) (hbB : b < batch.length)
    (h : batchOuter pval batch batchsum gammai w0 alpha st b = some st')
    (hinv : BatchInv pval batch batchsum gammai w0 b st) :
    BatchInv pval batch batchsum gammai w0 (b + 1) st' := by
  unfold batchOuter at h
  rcases Option.bind_eq_some.mp h with ⟨nb, hnb, h⟩
  have hnbD : batch.getD b 0 = nb := get?_some_getD 0 hnb
  rw [List.range_eq_range'] at h
  have hfin := foldlM_range_inv
    (batchBody pval batchsum gammai w0 alpha b (cumsum (rowSums st.R)))
    (fun x s =>
      BatchInv pval batch batchsum gammai w0 b s ∧
      (∀ x', x' < x → cell s.R b x' false = decide
        (pval.getD ((batchsum.getD (b - 1) 0 + (x' : ℕ)).toNat) 0
          ≤ cell s.A b x' 0)))
    nb.toNat 0 st st' h ⟨hinv, by omega⟩
    (by
      intro x s s' _ hx hbody hP
      obtain ⟨⟨hdims, hseed, hold⟩, hrow⟩ := hP
      obtain ⟨ai, pi, hai, rfl, hpi⟩ := batchBody_some hbody
      have hbA : b < s.A.length := by
        rw [hdims.1]; exact hbB
      have hbR : b < s.R.length := by
        rw [hdims.2.1]; exact hbB
      have hxM : x < (vecMax batch).toNat := by
        have h1 : nb ≤ vecMax batch := hnbD ▸ getD_le_vecMax hbB
        have h2 : nb.toNat ≤ (vecMax batch).toNat := Int.toNat_le_toNat h1
        omega
      have hxA : x < (s.A.getD b []).length := by
        rw [List.getD_eq_getElem _ _ hbA,
          hdims.2.2.1 _ (List.getElem_mem hbA)]
        exact hxM
      have hxR : x < (s.R.getD b []).length := by
        rw [List.getD_eq_getElem _ _ hbR,
          hdims.2.2.2 _ (List.getElem_mem hbR)]
        exact hxM
      refine ⟨⟨?_, ?_, ?_⟩, ?_⟩
      · exact ⟨by rw [length_setCell]; exact hdims.1,
          by rw [length_setCell]; exact hdims.2.1,
          rows_setCell _ _ _ hbA hdims.2.2.1,
          rows_setCell _ _ _ hbR hdims.2.2.2⟩
      · intro x2 hx2
        rw [cell_setCell_ne _ _ _ _ _ _ _ (Or.inl (by omega)),
          cell_setCell_ne _ _ _ _ _ _ _ (Or.inl (by omega))]
        exact hseed x2 hx2
      · intro b2 hb2 hb2b x2 hx2
        rw [cell_setCell_ne _ _ _ _ _ _ _ (Or.inl (by omega)),
          cell_setCell_ne _ _ _ _ _ _ _ (Or.inl (by omega))]
        exact hold b2 hb2 hb2b x2 hx2
      · intro x' hx'
        by_cases hxe : x' = x
        · subst hxe
          rw [cell_setCell_self _ _ _ _ _ hbR hxR,
            cell_setCell_self _ _ _ _ _ hbA hxA, hpi]
        · rw [cell_setCell_ne _ _ _ _ _ _ _ (Or.inr hxe),
            cell_setCell_ne _ _ _ _ _ _ _ (Or.inr hxe)]
          exact hrow x' (by omega))
  obtain ⟨⟨hdims, hseed, hold⟩, hrow⟩ := hfin
  refine ⟨hdims, hseed, ?_⟩
  intro b2 hb2 hb2b x2 hx2
  by_cases hbe : b2 = b
  · subst hbe
    apply hrow
    rw [hnbD] at hx2
    omega
  · exact hold b2 hb2 (by omega) x2 hx2

theorem cell_setCell_cases {α : Type} (m : List (List α)) (b x b' x' : ℕ)
    (v d : α) :
    cell (setCell m b x v) b' x' d = v ∨
    cell (setCell m b x v) b' x' d = cell m b' x' d := by
  by_cases hbe : b' = b
  · subst hbe
    by_cases hxe : x' = x
    · subst hxe
      by_cases hb : b' < m.length
      · by_cases hx : x' < (m.getD b' []).length
        · exact Or.inl (cell_setCell_self m b' x' v d hb hx)
        · right
          unfold setCell
          rw [List.set_eq_of_length_le (not_lt.mp hx)]
          unfold cell
          rw [getD_set_self _ _ _ _ hb]
      · right
        unfold setCell
        rw [List.set_eq_of_length_le (not_lt.mp hb)]
    · exact Or.inr (cell_setCell_ne m b' x b' x' v d (Or.inr hxe))
  · exact Or.inr (cell_setCell_ne m b x b' x' v d (Or.inl hbe))

theorem batch_run_spec {pval : List ℚ} {batch batchsum : List ℤ}
    {gammai : List ℚ} {w0 alpha : ℚ} {A : List (List ℚ)}
    {R : List (List Bool)}
    (h : lordstar_batch_faster pval batch batchsum gammai w0 alpha
      = some (A, R)) :
    A.length = batch.length ∧ R.length = batch.length ∧
    1 ≤ batch.length ∧
    (∀ x, x < (batch.getD 0 0).toNat →
      cell A 0 x 0 = gammai.getD x 0 * w0 ∧
      cell R 0 x false = decide (pval.getD x 0 ≤ cell A 0 x 0)) ∧
    (∀ b, 1 ≤ b → b < batch.length → ∀ x, x < (batch.getD b 0).toNat →
      cell R b x false = decide
        (pval.getD ((batchsum.getD (b - 1) 0 + (x : ℕ)).toNat) 0
          ≤ cell A b x 0)) := by
  unfold lordstar_batch_faster at h
  rcases Option.bind_eq_some.mp h with ⟨b0, hb0, h⟩
  rcases Option.bind_eq_some.mp h with ⟨st0, hseedfold, h⟩
  rcases Option.bind_eq_some.mp h with ⟨stF, houter, h⟩
  have hB : 0 < batch.length := (List.get?_eq_some.mp hb0).1
  have hb0D : batch.getD 0 0 = b0 := get?_some_getD 0 hb0
  have hb0M : b0.toNat ≤ (vecMax batch).toNat :=
    Int.toNat_le_toNat (hb0D ▸ getD_le_vecMax hB)
  rw [List.range_eq_range'] at hseedfold
  have hseedInv := foldlM_range_inv
    (fun st i => do
      let gi ← gammai.get? i
      let ai := gi * w0
      let pi ← pval.get? i
      pure (⟨setCell st.A 0 i ai,
             setCell st.R 0 i (decide (pi ≤ ai))⟩ : BState))
    (fun x s =>
      BatchDims batch.length (vecMax batch).toNat s ∧
      (∀ x', x' < x → x' < (batch.getD 0 0).toNat →
        cell s.A 0 x' 0 = gammai.getD x' 0 * w0 ∧
        cell s.R 0 x' false = decide (pval.getD x' 0 ≤ cell s.A 0 x' 0)))
    b0.toNat 0 _ st0 hseedfold
    (by
      refine ⟨⟨by simp, by simp, ?_, ?_⟩, by omega⟩
      · intro row hrow
        rw [List.eq_of_mem_replicate hrow]
        simp
      · intro row hrow
        rw [List.eq_of_mem_replicate hrow]
        simp)
    (by
      intro i s s' _ hi hbody hP
      obtain ⟨hdims, hcells⟩ := hP
      rcases Option.bind_eq_some.mp hbody with ⟨gi, hgi, hbody⟩
      rcases Option.bind_eq_some.mp hbody with ⟨pi, hpi, hbody⟩
      cases hbody
      have h0A : 0 < s.A.length := by rw [hdims.1]; exact hB
      have h0R : 0 < s.R.length := by rw [hdims.2.1]; exact hB
      have hiM : i < (vecMax batch).toNat := by omega
      have hiA : i < (s.A.getD 0 []).length := by
        rw [List.getD_eq_getElem _ _ h0A, hdims.2.2.1 _ (List.getElem_mem h0A)]
        exact hiM
      have hiR : i < (s.R.getD 0 []).length := by
        rw [List.getD_eq_getElem _ _ h0R, hdims.2.2.2 _ (List.getElem_mem h0R)]
        exact hiM
      refine ⟨⟨by rw [length_setCell]; exact hdims.1,
        by rw [length_setCell]; exact hdims.2.1,
        rows_setCell _ _ _ h0A hdims.2.2.1,
        rows_setCell _ _ _ h0R hdims.2.2.2⟩, ?_⟩
      intro x' hx' hx'b
      by_cases hxe : x' = i
      · subst hxe
        rw [cell_setCell_self _ _ _ _ _ h0R hiR,
          cell_setCell_self _ _ _ _ _ h0A hiA,
          get?_some_getD 0 hgi, get?_some_getD 0 hpi]
        exact ⟨rfl, rfl⟩
      · rw [cell_setCell_ne _ _ _ _ _ _ _ (Or.inr hxe),
          cell_setCell_ne _ _ _ _ _ _ _ (Or.inr hxe)]
        exact hcells x' (by omega) hx'b)
  have hseed1 : BatchInv pval batch batchsum gammai w0 1 st0 := by
    obtain ⟨hdims, hcells⟩ := hseedInv
    refine ⟨hdims, ?_, ?_⟩
    · intro x hx
      exact hcells x (by rw [hb0D] at hx; omega) hx
    · intro b' hb1 hb2 x hx
      omega
  have hfin := foldlM_range_inv
    (batchOuter pval batch batchsum gammai w0 alpha)
    (BatchInv pval batch batchsum gammai w0)
    (batch.length - 1) 1 st0 stF houter hseed1
    (fun b s s' hb1 hb2 hs hP =>
      batchOuter_preserves hb1 (by omega) hs hP)
  have hBsub : 1 + (batch.length - 1) = batch.length := by omega
  rw [hBsub] at hfin
  obtain ⟨⟨hA, hR, _, _⟩, hseedp, holdp⟩ := hfin
  simp only [Option.pure_def, Option.some_inj, Prod.mk.injEq] at h
  obtain ⟨rfl, rfl⟩ := h
  exact ⟨hA, hR, hB, hseedp, holdp⟩

theorem batch_run_nonneg {pval : List ℚ} {batch batchsum : List ℤ}
    {gammai : List ℚ} {w0 alpha : ℚ} {A : List (List ℚ)}
    {R : List (List Bool)}
    (h : lordstar_batch_faster pval batch batchsum gammai w0 alpha
      = some (A, R))
    (hg : ∀ g ∈ gammai, 0 ≤ g) (hw : 0 ≤ w0) (hwa : w0 ≤ alpha) :
    ∀ b x, 0 ≤ cell A b x 0 := by
  unfold lordstar_batch_faster at h
  rcases Option.bind_eq_some.mp h with ⟨b0, hb0, h⟩
  rcases Option.bind_eq_some.mp h with ⟨st0, hseedfold, h⟩
  rcases Option.bind_eq_some.mp h with ⟨stF, houter, h⟩
  have hrepl : ∀ (n x : ℕ), (List.replicate n (0 : ℚ)).getD x 0 = 0 := by
    intro n x
    rcases lt_or_ge x n with hx | hx
    · rw [List.getD_eq_getElem (List.replicate n (0 : ℚ)) 0
        (by simpa using hx)]
      simp
    · rw [List.getD_eq_default (List.replicate n (0 : ℚ)) 0
        (by simpa using hx)]
  have hP0 : ∀ b x, 0 ≤ cell
      (⟨List.replicate batch.length
          (List.replicate (vecMax batch).toNat (0 : ℚ)),
        List.replicate batch.length
          (List.replicate (vecMax batch).toNat false)⟩ : BState).A b x 0 := by
    intro b x
    unfold cell
    rcases lt_or_ge b batch.length with hb | hb
    · rw [List.getD_eq_getElem
        (List.replicate batch.length
          (List.replicate (vecMax batch).toNat (0 : ℚ))) []
        (by simpa using hb)]
      simp only [List.getElem_replicate]
      rw [hrepl]
    · rw [List.getD_eq_default
        (List.replicate batch.length
          (List.replicate (vecMax batch).toNat (0 : ℚ))) []
        (by simpa using hb)]
      simp
  have hPseed := foldlM_inv
    (f := fun (st : BState) i => do
      let gi ← gammai.get? i
      let ai := gi * w0
      let pi ← pval.get? i
      pure (⟨setCell st.A 0 i ai,
             setCell st.R 0 i (decide (pi ≤ ai))⟩ : BState))
    (fun s => ∀ b x, 0 ≤ cell s.A b x 0) _ _ st0 hseedfold hP0
    (by
      intro s i s' _ hbody hPs
      rcases Option.bind_eq_some.mp hbody with ⟨gi, hgi, hbody⟩
      rcases Option.bind_eq_some.mp hbody with ⟨pi, hpi, hbody⟩
      cases hbody
      intro b x
      rcases cell_setCell_cases s.A 0 i b x (gi * w0) 0 with hc | hc
      · rw [hc]
        exact mul_nonneg (hg gi (get?_some_mem hgi)) hw
      · rw [hc]
        exact hPs b x)
  have hPfin := foldlM_inv
    (f := batchOuter pval batch batchsum gammai w0 alpha)
    (fun s => ∀ b x, 0 ≤ cell s.A b x 0) _ _ stF houter hPseed
    (by
      intro s b s' _ hout hPs
      unfold batchOuter at hout
      rcases Option.bind_eq_some.mp hout with ⟨nb, hnb, hout⟩
      have hPinner := foldlM_inv
        (f := batchBody pval batchsum gammai w0 alpha b
          (cumsum (rowSums s.R)))
        (fun s2 => ∀ b2 x2, 0 ≤ cell s2.A b2 x2 0) _ _ s' hout hPs
        (by
          intro s2 x s2' _ hbody hPs2
          obtain ⟨ai, pi, hai, rfl, _⟩ := batchBody_some hbody
          intro b2 x2
          rcases cell_setCell_cases s2.A b x b2 x2 ai 0 with hc | hc
          · rw [hc]
            exact batchThreshold_nonneg hai hg hw hwa
          · rw [hc]
            exact hPs2 b2 x2)
      exact hPinner)
  simp only [Option.pure_def, Option.some_inj, Prod.mk.injEq] at h
  obtain ⟨rfl, rfl⟩ := h
  exact hPfin

/-! ### Claim C1: decisions are exact threshold comparisons -/

/-- C1: for each of the three procedures and every input on which the
procedure returns, the rejection decision at every test index is `true`
exactly when the p-value is `≤` the returned threshold at that index
(exact rational comparison).  For the batch procedure the indices are
the matrix cells of each batch and the p-value index is the
batch-prefix-sum offset plus the within-batch position. -/
theorem claim_C1_decision_rule :
    (∀ (pval : List ℚ) (E : List ℤ) (gammai : List ℚ) (w0 alpha : ℚ)
      (A : List ℚ) (R : List Bool),
      lordstar_async_faster pval E gammai w0 alpha = some (A, R) →
      ∀ i, i < pval.length →
        R.getD i false = decide (pval.getD i 0 ≤ A.getD i 0)) ∧
    (∀ (pval : List ℚ) (L : List ℤ) (gammai : List ℚ) (w0 alpha : ℚ)
      (A : List ℚ) (R : List Bool),
      lordstar_dep_faster pval L gammai w0 alpha = some (A, R) →
      ∀ i, i < pval.length →
        R.getD i false = decide (pval.getD i 0 ≤ A.getD i 0)) ∧
    (∀ (pval : List ℚ) (batch batchsum : List ℤ) (gammai : List ℚ)
      (w0 alpha : ℚ) (A : List (List ℚ)) (R : List (List Bool)),
      lordstar_batch_faster pval batch batchsum gammai w0 alpha
        = some (A, R) →
      (∀ x, x < (batch.getD 0 0).toNat →
        cell R 0 x false = decide (pval.getD x 0 ≤ cell A 0 x 0)) ∧
      (∀ b, 1 ≤ b → b < batch.length → ∀ x, x < (batch.getD b 0).toNat →
        cell R b x false = decide
          (pval.getD ((batchsum.getD (b - 1) 0 + (x : ℕ)).toNat) 0
            ≤ cell A b x 0))) :=
  ⟨fun _ _ _ _ _ _ _ h i hi => (async_run_spec h).2.2.2.2.1 i hi,
   fun _ _ _ _ _ _ _ h i hi => (dep_run_spec h).2.2.2.2 i hi,
   fun _ _ _ _ _ _ _ _ h =>
     ⟨fun x hx => ((batch_run_spec h).2.2.2.1 x hx).2,
      (batch_run_spec h).2.2.2.2⟩⟩

/-- Witness for C1 on a concrete async run. -/
theorem claim_C1_decision_rule_witness :
    lordstar_async_faster [0, 1] [1, 2] [1, 1] 1 1
      = some ([1, 1], [true, true]) ∧
    (∀ i, i < ([0, 1] : List ℚ).length →
      ([true, true] : List Bool).getD i false
        = decide (([0, 1] : List ℚ).getD i 0
            ≤ ([1, 1] : List ℚ).getD i 0)) :=
  ⟨by
    simp [lordstar_async_faster, asyncStep, asyncCond, stepThreshold, getZ,
      invertCounts, vecMax, upperBound, upperBoundAux, List.range',
      List.range, List.range.loop, List.foldlM_cons, List.foldlM_nil],
   claim_C1_decision_rule.1 [0, 1] [1, 2] [1, 1] 1 1 [1, 1] [true, true]
    (by
      simp [lordstar_async_faster, asyncStep, asyncCond, stepThreshold, getZ,
        invertCounts, vecMax, upperBound, upperBoundAux, List.range',
        List.range, List.range.loop, List.foldlM_cons, List.foldlM_nil])⟩

/-! ### Claim C2: the async threshold formula -/

theorem stepThresholdP_eq_cases (gammai : List ℚ) (w0 alpha : ℚ) (i : ℕ)
    (r : List ℕ) :
    (r = [] → stepThresholdP gammai w0 alpha i r = gammai.getD i 0 * w0) ∧
    (r.length = 1 → stepThresholdP gammai w0 alpha i r =
      gammai.getD i 0 * w0 +
        (alpha - w0) * gammai.getD (i - r.headD 0 - 1) 0) ∧
    (2 ≤ r.length → stepThresholdP gammai w0 alpha i r =
      gammai.getD i 0 * w0 +
        (alpha - w0) * gammai.getD (i - r.headD 0 - 1) 0 +
        alpha * ((r.drop 1).map (fun rg => gammai.getD (i - rg - 1) 0)).sum) := by
  cases r with
  | nil => exact ⟨fun _ => rfl, by simp, by simp⟩
  | cons r0 rest =>
    cases rest with
    | nil => exact ⟨by simp, fun _ => rfl, by simp⟩
    | cons r1 rest2 =>
      exact ⟨by simp, by simp, fun _ => rfl⟩

/-- C2: in the async procedure, for every step `i ≥ 1` of a successful
run, with `r` the ordered positions obtained by inverting the cumulative
visible-rejection counts (recomputed from the returned decisions): no
visible rejection gives `threshold[i] = gammai[i]*w0`; exactly one gives
`gammai[i]*w0 + (alpha-w0)*gammai[i-r[0]-1]`; more than one adds
`alpha * Σ gammai[i-r[g]-1]` over the remaining positions. -/
theorem claim_C2_async_threshold_formula {pval : List ℚ} {E : List ℤ}
    {gammai : List ℚ} {w0 alpha : ℚ} {A : List ℚ} {R : List Bool}
    (h : lordstar_async_faster pval E gammai w0 alpha = some (A, R)) :
    ∀ i, 1 ≤ i → i < pval.length →
      (invertCounts ((List.range' 1 i).map (fun k => asyncCondP R E k)) = []
        → A.getD i 0 = gammai.getD i 0 * w0) ∧
      ((invertCounts ((List.range' 1 i).map
          (fun k => asyncCondP R E k))).length = 1
        → A.getD i 0 = gammai.getD i 0 * w0 + (alpha - w0) *
            gammai.getD (i - (invertCounts ((List.range' 1 i).map
              (fun k => asyncCondP R E k))).headD 0 - 1) 0) ∧
      (2 ≤ (invertCounts ((List.range' 1 i).map
          (fun k => asyncCondP R E k))).length
        → A.getD i 0 = gammai.getD i 0 * w0 + (alpha - w0) *
            gammai.getD (i - (invertCounts ((List.range' 1 i).map
              (fun k => asyncCondP R E k))).headD 0 - 1) 0 +
            alpha * (((invertCounts ((List.range' 1 i).map
              (fun k => asyncCondP R E k))).drop 1).map
                (fun rg => gammai.getD (i - rg - 1) 0)).sum) := by
  intro i hi1 hi2
  have hval := (async_run_spec h).2.2.2.2.2 i hi1 hi2
  have hcases := stepThresholdP_eq_cases gammai w0 alpha i
    (invertCounts ((List.range' 1 i).map (fun k => asyncCondP R E k)))
  exact ⟨fun he => by rw [hval, hcases.1 he],
    fun he => by rw [hval, hcases.2.1 he],
    fun he => by rw [hval, hcases.2.2 he]⟩

/-- Witness for C2 on a concrete async run (one visible rejection at
step 1). -/
theorem claim_C2_async_threshold_formula_witness :
    lordstar_async_faster [0, 1] [1, 2] [1, 1] 1 1
      = some ([1, 1], [true, true]) ∧
    (∀ i, 1 ≤ i → i < ([0, 1] : List ℚ).length →
      (invertCounts ((List.range' 1 i).map
          (fun k => asyncCondP [true, true] [1, 2] k)) = []
        → ([1, 1] : List ℚ).getD i 0
            = ([1, 1] : List ℚ).getD i 0 * 1) ∧
      ((invertCounts ((List.range' 1 i).map
          (fun k => asyncCondP [true, true] [1, 2] k))).length = 1
        → ([1, 1] : List ℚ).getD i 0
            = ([1, 1] : List ℚ).getD i 0 * 1 + (1 - 1) *
              ([1, 1] : List ℚ).getD
                (i - (invertCounts ((List.range' 1 i).map
                  (fun k => asyncCondP [true, true] [1, 2] k))).headD 0 - 1)
                0) ∧
      (2 ≤ (invertCounts ((List.range' 1 i).map
          (fun k => asyncCondP [true, true] [1, 2] k))).length
        → ([1, 1] : List ℚ).getD i 0
            = ([1, 1] : List ℚ).getD i 0 * 1 + (1 - 1) *
              ([1, 1] : List ℚ).getD
                (i - (invertCounts ((List.range' 1 i).map
                  (fun k => asyncCondP [true, true] [1, 2] k))).headD 0 - 1)
                0 +
              1 * (((invertCounts ((List.range' 1 i).map
                (fun k => asyncCondP [true, true] [1, 2] k))).drop 1).map
                  (fun rg => ([1, 1] : List ℚ).getD (i - rg - 1) 0)).sum)) :=
  ⟨by
    simp [lordstar_async_faster, asyncStep, asyncCond, stepThreshold, getZ,
      invertCounts, vecMax, upperBound, upperBoundAux, List.range',
      List.range, List.range.loop, List.foldlM_cons, List.foldlM_nil],
   claim_C2_async_threshold_formula
    (by
      simp [lordstar_async_faster, asyncStep, asyncCond, stepThreshold, getZ,
        invertCounts, vecMax, upperBound, upperBoundAux, List.range',
        List.range, List.range.loop, List.foldlM_cons, List.foldlM_nil])⟩

/-! ### Claim C7: step-0 / batch-0 seeding -/

/-- C7: step 0 of the async and dependency procedures is seeded with
`threshold[0] = gammai[0]*w0`, and every test `i` of batch 0 of the
batch procedure is seeded with `threshold = gammai[i]*w0`, with no
history contribution. -/
theorem claim_C7_seeding :
    (∀ (pval : List ℚ) (E : List ℤ) (gammai : List ℚ) (w0 alpha : ℚ)
      (A : List ℚ) (R : List Bool),
      lordstar_async_faster pval E gammai w0 alpha = some (A, R) →
      A.getD 0 0 = gammai.getD 0 0 * w0) ∧
    (∀ (pval : List ℚ) (L : List ℤ) (gammai : List ℚ) (w0 alpha : ℚ)
      (A : List ℚ) (R : List Bool),
      lordstar_dep_faster pval L gammai w0 alpha = some (A, R) →
      A.getD 0 0 = gammai.getD 0 0 * w0) ∧
    (∀ (pval : List ℚ) (batch batchsum : List ℤ) (gammai : List ℚ)
      (w0 alpha : ℚ) (A : List (List ℚ)) (R : List (List Bool)),
      lordstar_batch_faster pval batch batchsum gammai w0 alpha
        = some (A, R) →
      ∀ x, x < (batch.getD 0 0).toNat →
        cell A 0 x 0 = gammai.getD x 0 * w0) :=
  ⟨fun _ _ _ _ _ _ _ h => (async_run_spec h).2.2.2.1,
   fun _ _ _ _ _ _ _ h => (dep_run_spec h).2.2.2.1,
   fun _ _ _ _ _ _ _ _ h x hx => ((batch_run_spec h).2.2.2.1 x hx).1⟩

/-- Witness for C7 on a concrete batch run. -/
theorem claim_C7_seeding_witness :
    lordstar_batch_faster [0, 0] [1, 1] [1, 2] [1, 1] 1 1
      = some ([[1], [1]], [[true], [true]]) ∧
    (∀ x, x < (([1, 1] : List ℤ).getD 0 0).toNat →
      cell [[(1 : ℚ)], [1]] 0 x 0 = ([1, 1] : List ℚ).getD x 0 * 1) :=
  ⟨by
    simp [lordstar_batch_faster, batchOuter, batchBody, batchThreshold,
      getZ, invertCounts, vecMax, upperBound, upperBoundAux, cumsum,
      rowSums, setCell, cell, List.range', List.range, List.range.loop,
      List.foldlM_cons, List.foldlM_nil],
   claim_C7_seeding.2.2 [0, 0] [1, 1] [1, 2] [1, 1] 1 1 [[1], [1]]
    [[true], [true]]
    (by
      simp [lordstar_batch_faster, batchOuter, batchBody, batchThreshold,
        getZ, invertCounts, vecMax, upperBound, upperBoundAux, cumsum,
        rowSums, setCell, cell, List.range', List.range, List.range.loop,
        List.foldlM_cons, List.foldlM_nil])⟩

/-! ### Claim C9: thresholds are non-negative -/

/-- C9: when every `gammai` entry is non-negative and `0 ≤ w0 ≤ alpha`,
every threshold returned by any of the three procedures is
non-negative (unused matrix cells of the batch output hold the
initial value `0`). -/
theorem claim_C9_thresholds_nonneg :
    (∀ (pval : List ℚ) (E : List ℤ) (gammai : List ℚ) (w0 alpha : ℚ)
      (A : List ℚ) (R : List Bool),
      lordstar_async_faster pval E gammai w0 alpha = some (A, R) →
      (∀ g ∈ gammai, 0 ≤ g) → 0 ≤ w0 → w0 ≤ alpha →
      ∀ i, 0 ≤ A.getD i 0) ∧
    (∀ (pval : List ℚ) (L : List ℤ) (gammai : List ℚ) (w0 alpha : ℚ)
      (A : List ℚ) (R : List Bool),
      lordstar_dep_faster pval L gammai w0 alpha = some (A, R) →
      (∀ g ∈ gammai, 0 ≤ g) → 0 ≤ w0 → w0 ≤ alpha →
      ∀ i, 0 ≤ A.getD i 0) ∧
    (∀ (pval : List ℚ) (batch batchsum : List ℤ) (gammai : List ℚ)
      (w0 alpha : ℚ) (A : List (List ℚ)) (R : List (List Bool)),
      lordstar_batch_faster pval batch batchsum gammai w0 alpha
        = some (A, R) →
      (∀ g ∈ gammai, 0 ≤ g) → 0 ≤ w0 → w0 ≤ alpha →
      ∀ b x, 0 ≤ cell A b x 0) :=
  ⟨fun _ _ _ _ _ _ _ h hg hw hwa => async_run_nonneg h hg hw hwa,
   fun _ _ _ _ _ _ _ h hg hw hwa => dep_run_nonneg h hg hw hwa,
   fun _ _ _ _ _ _ _ _ h hg hw hwa => batch_run_nonneg h hg hw hwa⟩

/-- Witness for C9 on a concrete async run. -/
theorem claim_C9_thresholds_nonneg_witness :
    lordstar_async_faster [0, 1] [1, 2] [1, 1] 1 1
      = some ([1, 1], [true, true]) ∧
    (∀ i, 0 ≤ ([1, 1] : List ℚ).getD i 0) :=
  ⟨by
    simp [lordstar_async_faster, asyncStep, asyncCond, stepThreshold, getZ,
      invertCounts, vecMax, upperBound, upperBoundAux, List.range',
      List.range, List.range.loop, List.foldlM_cons, List.foldlM_nil],
   claim_C9_thresholds_nonneg.1 [0, 1] [1, 2] [1, 1] 1 1 [1, 1]
    [true, true]
    (by
      simp [lordstar_async_faster, asyncStep, asyncCond, stepThreshold, getZ,
        invertCounts, vecMax, upperBound, upperBoundAux, List.range',
        List.range, List.range.loop, List.foldlM_cons, List.foldlM_nil])
    (by
      intro g hgm
      simp at hgm
      simp [hgm])
    (by norm_num) (by norm_num)⟩

/-! ### Claim C10: the async procedure is not total at N = 1 -/

/-- C10: on any single-test input the async procedure performs the
unconditional out-of-range write `Rdectest[1] = 1` into its length-1
buffer, so in this embedding the run returns `none` for every
single-element p-value sequence. -/
theorem claim_C10_single_test_not_total (p : ℚ) (E : List ℤ)
    (gammai : List ℚ) (w0 alpha : ℚ) :
    lordstar_async_faster [p] E gammai w0 alpha = none := by
  unfold lordstar_async_faster
  cases hg : gammai.get? 0 with
  | none => rfl
  | some g0 => simp

/-! ### Claim C6: lag equal to the full step index -/

theorem invertCounts_of_zeros {h : List ℤ} (hz : ∀ c ∈ h, c = (0 : ℤ)) :
    invertCounts h = [] := by
  rcases eq_or_ne h [] with rfl | hne
  · simp [invertCounts, vecMax]
  · have hm : vecMax h = 0 := hz _ (vecMax_mem hne)
    simp [invertCounts, hm]

/-- C6: in the dependency procedure, when the lag at every step equals
the full step index, every step `i ≥ 1` has a visible-rejection count of
zero and `threshold[i] = gammai[i]*w0`; and in general, whenever a
step's lag exceeds the available history (`i - 1 - L[i] < 0`), the
visible count appended for that step is zero. -/
theorem claim_C6_full_lag {pval : List ℚ} {L : List ℤ} {gammai : List ℚ}
    {w0 alpha : ℚ} {A : List ℚ} {R : List Bool}
    (h : lordstar_dep_faster pval L gammai w0 alpha = some (A, R))
    (hL : ∀ i, i < pval.length → L.getD i 0 = (i : ℤ)) :
    (∀ i, 1 ≤ i → i < pval.length →
      A.getD i 0 = gammai.getD i 0 * w0) ∧
    (∀ (R2 : List Bool) (L2 : List ℤ) (i : ℕ) (c : ℤ),
      depCond R2 L2 i = some c → (i : ℤ) - 1 - L2.getD i 0 < 0 → c = 0) := by
  constructor
  · unfold lordstar_dep_faster at h
    cases hg0 : gammai.get? 0 with
    | none => rw [hg0] at h; exact absurd h (by simp)
    | some g0 =>
      rw [hg0] at h
      simp only [Option.bind_eq_bind, Option.some_bind] at h
      cases hp0 : pval.get? 0 with
      | none => rw [hp0] at h; exact absurd h (by simp)
      | some p0 =>
        rw [hp0] at h
        simp only [Option.some_bind] at h
        cases hfold : (List.range' 1 (pval.length - 1)).foldlM
            (depStep pval L gammai w0 alpha)
            ⟨(List.replicate pval.length (0 : ℚ)).set 0 (g0 * w0),
             (List.replicate pval.length false).set 0 (decide (p0 ≤ g0 * w0)),
             []⟩ with
        | none => rw [hfold] at h; exact absurd h (by simp)
        | some stF =>
          rw [hfold] at h
          simp only [Option.some_bind, Option.pure_def, Option.some_inj,
            Prod.mk.injEq] at h
          have hfin := foldlM_range_inv
            (depStep pval L gammai w0 alpha)
            (fun i st =>
              st.alphai.length = pval.length ∧
              (∀ c ∈ st.hist, c = (0 : ℤ)) ∧
              (∀ j, 1 ≤ j → j < i →
                st.alphai.getD j 0 = gammai.getD j 0 * w0))
            (pval.length - 1) 1 _ stF hfold
            ⟨by simp, by simp, by omega⟩
            (by
              intro j s s' hj1 hj2 hs hP
              unfold depStep at hs
              cases hc : depCond s.R L j with
              | none => rw [hc] at hs; exact absurd hs (by simp)
              | some cond =>
                rw [hc] at hs
                simp only [Option.bind_eq_bind, Option.some_bind] at hs
                have hcz : cond = 0 := by
                  have hdc := (depCond_some hc).2
                  rw [depCondP, hL j (by omega)] at hdc
                  rw [if_neg (by omega)] at hdc
                  exact hdc
                have hzero : ∀ c ∈ s.hist ++ [cond], c = (0 : ℤ) := by
                  intro c hcm
                  rcases List.mem_append.mp hcm with hcm | hcm
                  · exact hP.2.1 c hcm
                  · rcases List.mem_singleton.mp hcm with rfl
                    exact hcz
                rw [invertCounts_of_zeros hzero] at hs
                cases ht : stepThreshold gammai w0 alpha j [] with
                | none => rw [ht] at hs; exact absurd hs (by simp)
                | some ai =>
                  rw [ht] at hs
                  simp only [Option.some_bind] at hs
                  cases hp : pval.get? j with
                  | none => rw [hp] at hs; exact absurd hs (by simp)
                  | some pi =>
                    rw [hp] at hs
                    simp only [Option.some_bind, Option.pure_def,
                      Option.some_inj] at hs
                    subst hs
                    refine ⟨by simpa using hP.1, hzero, ?_⟩
                    intro jj hjj1 hjj2
                    by_cases hje : jj = j
                    · subst hje
                      have hts := (stepThreshold_some ht).2.2
                      have hlen : jj < s.alphai.length := by
                        rw [hP.1]; omega
                      rw [getD_set_self _ _ _ _ hlen, hts]
                      rfl
                    · rw [getD_set_ne _ _ _ _ _ hje]
                      exact hP.2.2 jj hjj1 (by omega))
          have hNpos : 0 < pval.length := (List.get?_eq_some.mp hp0).1
          have hNsub : 1 + (pval.length - 1) = pval.length := by omega
          rw [hNsub] at hfin
          obtain ⟨rfl, rfl⟩ := h
          exact fun i hi1 hi2 => hfin.2.2 i hi1 hi2
  · intro R2 L2 i c hc hneg
    have hdc := (depCond_some hc).2
    rw [depCondP, if_neg (by omega)] at hdc
    exact hdc

/-- Witness for C6 on a concrete dependency run with `L[i] = i`. -/
theorem claim_C6_full_lag_witness :
    (∀ i, 1 ≤ i → i < ([0, 0] : List ℚ).length →
      ([1, 1] : List ℚ).getD i 0 = ([1, 1] : List ℚ).getD i 0 * 1) ∧
    (∀ (R2 : List Bool) (L2 : List ℤ) (i : ℕ) (c : ℤ),
      depCond R2 L2 i = some c → (i : ℤ) - 1 - L2.getD i 0 < 0 → c = 0) :=
  @claim_C6_full_lag [0, 0] [0, 1] [1, 1] 1 1 [1, 1] [true, true]
    (by
      simp [lordstar_dep_faster, depStep, depCond, stepThreshold, getZ,
        invertCounts, vecMax, upperBound, upperBoundAux, List.range',
        List.range, List.range.loop, List.foldlM_cons, List.foldlM_nil])
    (by decide)

/-! ### Claim C4: async with immediate visibility vs zero-lag dependency -/

theorem asyncStep_some_R_length {pval : List ℚ} {E : List ℤ}
    {gammai : List ℚ} {w0 alpha : ℚ} {st st' : SState} {j : ℕ}
    (h : asyncStep pval E gammai w0 alpha st j = some st') :
    st'.R.length = st.R.length := by
  unfold asyncStep at h
  rcases Option.bind_eq_some.mp h with ⟨cond, _, h⟩
  rcases Option.bind_eq_some.mp h with ⟨ai, _, h⟩
  rcases Option.bind_eq_some.mp h with ⟨pi, _, h⟩
  cases h
  simp

/-- With every horizon immediate (`E[j] = j+1`) the async visibility
scan counts exactly the strictly earlier rejections, like the zero-lag
dependency scan. -/
theorem condFold_eq (R : List Bool) (E : List ℤ) (i : ℕ) :
    ∀ (l : List ℕ) (c : ℤ),
      (∀ k ∈ l, E.get? k = some ((k : ℤ) + 1) ∧
        (k : ℤ) + 1 - 1 ≤ (i : ℤ) - 1) →
      l.foldlM (fun c j => do
          let rj ← R.get? j
          if rj then do
            let ej ← E.get? j
            pure (if ej - 1 ≤ (i : ℤ) - 1 then c + 1 else c)
          else
            pure c) c
      = l.foldlM (fun c j => do
          let rj ← R.get? j
          pure (if rj then c + 1 else c)) c := by
  intro l
  induction l with
  | nil => intro c _; rfl
  | cons a l ih =>
    intro c hmem
    rw [List.foldlM_cons, List.foldlM_cons]
    cases hr : R.get? a with
    | none => simp [hr]
    | some rj =>
      cases rj with
      | false =>
        simp only [hr, Option.bind_eq_bind, Option.some_bind,
          Bool.false_eq_true, if_false]
        exact ih c (fun k hk => hmem k (List.mem_cons_of_mem _ hk))
      | true =>
        have hEa := (hmem a (List.mem_cons_self _ _)).1
        have hca := (hmem a (List.mem_cons_self _ _)).2
        simp only [hr, hEa, Option.bind_eq_bind, Option.some_bind, if_true,
          if_pos hca]
        exact ih (c + 1) (fun k hk => hmem k (List.mem_cons_of_mem _ hk))

theorem asyncCond_eq_depCond_zero {R : List Bool} {pval : List ℚ} {j : ℕ}
    (hj1 : 1 ≤ j) (hjN : j < pval.length) :
    asyncCond R ((List.range pval.length).map (fun (t : ℕ) => (t : ℤ) + 1)) j
      = depCond R (List.replicate pval.length 0) j := by
  unfold asyncCond depCond
  rw [get?_replicate_lt (0 : ℤ) hjN]
  simp only [Option.bind_eq_bind, Option.some_bind]
  rw [if_pos (by omega : (0 : ℤ) ≤ (j : ℤ) - 1 - 0)]
  have ht : ((j : ℤ) - 0).toNat = j := by omega
  rw [ht]
  apply condFold_eq
  intro k hk
  have hkj : k < j := List.mem_range.mp hk
  constructor
  · rw [List.get?_eq_getElem?, List.getElem?_map,
      List.getElem?_range (show k < pval.length by omega)]
    rfl
  · omega

theorem asyncStep_eq_depStep_zero_lag {pval : List ℚ} {gammai : List ℚ}
    {w0 alpha : ℚ} {st : SState} {j : ℕ}
    (hj1 : 1 ≤ j) (hjN : j < pval.length) :
    asyncStep pval ((List.range pval.length).map (fun (t : ℕ) => (t : ℤ) + 1))
        gammai w0 alpha st j
      = depStep pval (List.replicate pval.length 0) gammai w0 alpha st j := by
  unfold asyncStep depStep
  rw [asyncCond_eq_depCond_zero hj1 hjN]
  simp only [guard_invert]

/-- C4 counterexample at a single-test input: the async run performs the
out-of-range `Rdectest[1]` write and returns no result, while the
zero-lag dependency run returns thresholds and decisions. -/
theorem claim_C4_counterexample :
    lordstar_async_faster [0] [1] [1] 0 0 = none ∧
    lordstar_dep_faster [0] [0] [1] 0 0 = some ([0], [true]) :=
  ⟨by simp [lordstar_async_faster],
   by
    simp [lordstar_dep_faster, depStep, depCond, stepThreshold, getZ,
      invertCounts, vecMax, upperBound, upperBoundAux, List.range',
      List.range, List.range.loop, List.foldlM_cons, List.foldlM_nil]⟩

/-- C4 (amended): for every input with at least two p-values, the async
procedure with immediate horizons (`E[j] = j+1` for every `j`) returns
exactly the same thresholds and decisions as the dependency procedure
with all lags zero; at a single p-value the async procedure instead
performs its out-of-range `Rdectest` write (see the counterexample). -/
theorem claim_C4_amended_async_eq_dep (pval gammai : List ℚ)
    (w0 alpha : ℚ) (h2 : 2 ≤ pval.length) :
    lordstar_async_faster pval
        ((List.range pval.length).map (fun (t : ℕ) => (t : ℤ) + 1)) gammai w0 alpha
      = lordstar_dep_faster pval
        (List.replicate pval.length 0) gammai w0 alpha := by
  unfold lordstar_async_faster lordstar_dep_faster
  cases hg0 : gammai.get? 0 with
  | none => rfl
  | some g0 =>
    simp only [Option.bind_eq_bind, Option.some_bind]
    cases hp0 : pval.get? 0 with
    | none => rfl
    | some p0 =>
      simp only [Option.some_bind]
      rw [if_pos (by omega : 1 < pval.length)]
      have hfold := foldlM_range_congr
        (asyncStep pval ((List.range pval.length).map (fun (t : ℕ) => (t : ℤ) + 1))
          gammai w0 alpha)
        (depStep pval (List.replicate pval.length 0) gammai w0 alpha)
        (fun _ st => st.R.length = pval.length)
        (pval.length - 1) 1
        ⟨(List.replicate pval.length (0 : ℚ)).set 0 (g0 * w0),
         (List.replicate pval.length false).set 0 (decide (p0 ≤ g0 * w0)),
         []⟩
        (by simp)
        (by
          intro j s hj1 hj2 hP
          refine ⟨asyncStep_eq_depStep_zero_lag hj1 (by omega), ?_⟩
          intro s' hs
          rw [asyncStep_some_R_length hs]
          exact hP)
      rw [hfold]

/-- Witness for the amended C4 at a concrete two-test input. -/
theorem claim_C4_amended_async_eq_dep_witness :
    lordstar_async_faster [0, 0]
        ((List.range ([0, 0] : List ℚ).length).map (fun (t : ℕ) => (t : ℤ) + 1))
        [1, 1] 0 0
      = lordstar_dep_faster [0, 0]
        (List.replicate ([0, 0] : List ℚ).length 0) [1, 1] 0 0 :=
  claim_C4_amended_async_eq_dep [0, 0] [1, 1] 0 0 (by decide)

/-! ### Claim C5: singleton batches versus zero-lag dependency -/

theorem getD_replicate {α : Type} (a d : α) (n i : ℕ) :
    (List.replicate n a).getD i d = if i < n then a else d := by
  split
  · next hlt =>
    rw [List.getD_eq_getElem (List.replicate n a) d (by simpa using hlt)]
    simp
  · next hge =>
    rw [List.getD_eq_default (List.replicate n a) d (by simpa using hge)]

theorem foldlM_congr_mem {α σ : Type} {f g : σ → α → Option σ} :
    ∀ (l : List α), (∀ a ∈ l, ∀ s, f s a = g s a) →
      ∀ (s : σ), l.foldlM f s = l.foldlM g s := by
  intro l
  induction l with
  | nil => intro _ s; rfl
  | cons a l ih =>
    intro h s
    rw [List.foldlM_cons, List.foldlM_cons, h a (List.mem_cons_self _ _) s]
    cases hg : g s a with
    | none => rfl
    | some s1 =>
      simp only [Option.bind_eq_bind, Option.some_bind]
      exact ih (fun a2 h2 => h a2 (List.mem_cons_of_mem _ h2)) s1

theorem visCount_succ (R : List Bool) (m : ℕ) :
    visCount R (m + 1)
      = visCount R m + (if R.getD m false then 1 else 0) := by
  unfold visCount
  rw [List.range_succ, List.filter_append]
  cases hm : R.getD m false <;>
    simp [List.filter_cons, ← List.getD_eq_getElem?_getD, hm]

theorem visCount_mono (R : List Bool) {m m' : ℕ} (h : m ≤ m') :
    visCount R m ≤ visCount R m' := by
  obtain ⟨k, rfl⟩ := Nat.exists_eq_add_of_le h
  induction k with
  | zero => exact le_refl _
  | succ k ih =>
    have hik := ih (by omega)
    rw [← Nat.add_assoc, visCount_succ]
    split
    · linarith
    · linarith

theorem visCount_tail_false {R : List Bool} {b : ℕ}
    (hz : ∀ j, b ≤ j → R.getD j false = false) :
    ∀ m, b ≤ m → visCount R m = visCount R b := by
  intro m hm
  obtain ⟨k, rfl⟩ := Nat.exists_eq_add_of_le hm
  induction k with
  | zero => rfl
  | succ k ih =>
    rw [← Nat.add_assoc, visCount_succ, hz (b + k) (by omega)]
    simpa using ih

theorem visCount_set_stable (R : List Bool) (v : Bool) {k i : ℕ}
    (hk : k ≤ i) : visCount (R.set i v) k = visCount R k := by
  unfold visCount
  have hfil : List.filter (fun j => (R.set i v).getD j false) (List.range k)
      = List.filter (fun j => R.getD j false) (List.range k) := by
    apply List.filter_congr
    intro j hj
    have hjk := List.mem_range.mp hj
    rw [getD_set_ne R i j v false (by omega)]
  rw [hfil]

theorem sum_take_ind (R : List Bool) :
    ∀ m, ((R.map (fun v => if v then (1 : ℤ) else 0)).take m).sum
      = visCount R m := by
  intro m
  induction m with
  | zero => simp [visCount]
  | succ m ih =>
    by_cases hm : m < R.length
    · rw [List.sum_take_succ _ m (by simpa using hm), ih, visCount_succ]
      congr 1
      rw [List.getElem_map, List.getD_eq_getElem R false hm]
    · have hlen : (R.map (fun v => if v then (1 : ℤ) else 0)).length ≤ m := by
        simpa using not_lt.mp hm
      rw [List.take_all_of_le (le_trans hlen (Nat.le_succ m))]
      rw [List.take_all_of_le hlen] at ih
      rw [ih, visCount_succ, List.getD_eq_default R false (not_lt.mp hm)]
      simp

theorem countFold_eval (R : List Bool) :
    ∀ (l : List ℕ) (c : ℤ), (∀ k ∈ l, k < R.length) →
      l.foldlM (fun c j => do
          let rj ← R.get? j
          pure (if rj then c + 1 else c)) c
      = some (c + ((l.filter (fun j => R.getD j false)).length : ℤ)) := by
  intro l
  induction l with
  | nil => intro c _; simp
  | cons a l ih =>
    intro c hmem
    have ha : a < R.length := hmem a (List.mem_cons_self _ _)
    have hga : R.get? a = some (R.getD a false) := by
      rw [List.get?_eq_getElem?, List.getElem?_eq_getElem ha,
        List.getD_eq_getElem R false ha]
    have hstep : (a :: l).foldlM
        (fun c j => do
          let rj ← R.get? j
          pure (if rj then c + 1 else c)) c
      = l.foldlM (fun c j => do
          let rj ← R.get? j
          pure (if rj then c + 1 else c))
        (if R.getD a false then c + 1 else c) := by
      rw [List.foldlM_cons, hga]
      rfl
    rw [hstep, ih _ (fun k hk => hmem k (List.mem_cons_of_mem _ hk))]
    cases hra : R.getD a false
    · simp [List.filter_cons, ← List.getD_eq_getElem?_getD, hra]
    · simp only [List.filter_cons, ← List.getD_eq_getElem?_getD, hra,
        if_true, List.length_cons]
      congr 1
      push_cast
      ring

theorem depCond_zero_lag {R : List Bool} {N b : ℕ} (hb1 : 1 ≤ b)
    (hbN : b < N) (hR : R.length = N) :
    depCond R (List.replicate N 0) b = some (visCount R b) := by
  have hcf := countFold_eval R (List.range b) 0
    (fun k hk => by have := List.mem_range.mp hk; omega)
  unfold depCond
  rw [get?_replicate_lt (0 : ℤ) hbN]
  show (if (0 : ℤ) ≤ (b : ℤ) - 1 - 0 then
      (List.range ((b : ℤ) - 0).toNat).foldlM
        (fun c j => do
          let rj ← R.get? j
          pure (if rj then c + 1 else c)) 0
    else pure 0) = some (visCount R b)
  rw [if_pos (by omega : (0 : ℤ) ≤ (b : ℤ) - 1 - 0),
    show ((b : ℤ) - 0).toNat = b by omega, hcf]
  rw [visCount]
  norm_num

theorem rowSums_map_singleton (R : List Bool) :
    rowSums (R.map (fun v => [v]))
      = R.map (fun v => if v then (1 : ℤ) else 0) := by
  unfold rowSums
  rw [List.map_map]
  apply List.map_congr_left
  intro v _
  simp

theorem cumsum_ind (R : List Bool) :
    cumsum (R.map (fun v => if v then (1 : ℤ) else 0))
      = (List.range R.length).map (fun k => visCount R (k + 1)) := by
  unfold cumsum
  rw [List.length_map]
  apply List.map_congr_left
  intro k _
  exact sum_take_ind R (k + 1)

theorem range_map_visCount_split {R : List Bool} {N b : ℕ}
    (hb1 : 1 ≤ b) (hbN : b ≤ N)
    (hz : ∀ j, b ≤ j → R.getD j false = false) :
    (List.range N).map (fun k => visCount R (k + 1))
      = (List.range' 1 b).map (fun k => visCount R k)
        ++ List.replicate (N - b) (visCount R b) := by
  have hsplit : List.range' 0 N = List.range' 0 b ++ List.range' b (N - b) := by
    have h := List.range'_append 0 b (N - b) 1
    rw [show 0 + 1 * b = b by omega, show N - b + b = N by omega] at h
    exact h.symm
  rw [List.range_eq_range', hsplit, List.map_append]
  congr 1
  · rw [List.range'_eq_map_range 1 b, List.map_map,
      show List.range' 0 b = List.range b from (List.range_eq_range' b).symm]
    apply List.map_congr_left
    intro k _
    show visCount R (k + 1) = visCount R (1 + k)
    rw [Nat.add_comm 1 k]
  · rw [List.eq_replicate]
    constructor
    · simp
    · intro y hy
      rcases List.mem_map.mp hy with ⟨k, hk, rfl⟩
      have hkb := (List.mem_range'_1.mp hk).1
      exact visCount_tail_false hz (k + 1) (by omega)

theorem visCount_hist_sorted (R : List Bool) (b : ℕ) :
    ((List.range' 1 b).map (fun k => visCount R k)).Sorted (· ≤ ·) := by
  apply List.pairwise_iff_getElem.mpr
  intro i j hi hj hij
  rw [List.length_map, List.length_range'] at hi hj
  rw [List.getElem_map, List.getElem_map, List.getElem_range', List.getElem_range']
  exact visCount_mono R (by omega)

theorem hist_pad_sorted (R : List Bool) (b k : ℕ) :
    (((List.range' 1 b).map (fun t => visCount R t))
      ++ List.replicate k (visCount R b)).Sorted (· ≤ ·) := by
  apply List.pairwise_append.mpr
  refine ⟨visCount_hist_sorted R b, ?_, ?_⟩
  · exact List.pairwise_replicate.mpr (Or.inr (le_refl _))
  · intro x hx y hy
    rcases List.mem_map.mp hx with ⟨t, ht, rfl⟩
    have htb := List.mem_range'_1.mp ht
    rw [List.eq_of_mem_replicate hy]
    exact visCount_mono R (by omega)

theorem invertCounts_mem_lt {xs : List ℤ} (hs : xs.Sorted (· ≤ ·)) :
    ∀ p ∈ invertCounts xs, p < xs.length := by
  intro p hp
  rcases List.mem_map.mp hp with ⟨y, hy, rfl⟩
  have hyr := List.mem_range.mp hy
  have hxs : xs ≠ [] := by
    intro hemp
    subst hemp
    simp [vecMax] at hyr
  exact upperBound_lt_length hs ⟨vecMax xs, vecMax_mem hxs, by omega⟩

theorem invertCounts_append_const {t : List ℤ} {m : ℤ} {k : ℕ}
    (hts : t.Sorted (· ≤ ·))
    (hs : (t ++ List.replicate k m).Sorted (· ≤ ·))
    (hmem : m ∈ t) (hmax : ∀ a ∈ t, a ≤ m) :
    invertCounts (t ++ List.replicate k m) = invertCounts t := by
  have htne : t ≠ [] := List.ne_nil_of_mem hmem
  have hvt : vecMax t = m :=
    le_antisymm (hmax _ (vecMax_mem htne)) (le_vecMax hmem)
  have hva : vecMax (t ++ List.replicate k m) = m := by
    apply le_antisymm
    · have hane : t ++ List.replicate k m ≠ [] := by
        intro hemp
        exact htne (by simpa using (List.append_eq_nil.mp hemp).1)
      rcases List.mem_append.mp (vecMax_mem hane) with hmm | hmm
      · exact hmax _ hmm
      · rw [List.eq_of_mem_replicate hmm]
    · exact le_vecMax (List.mem_append.mpr (Or.inl hmem))
  unfold invertCounts
  rw [hvt, hva]
  apply List.map_congr_left
  intro y hy
  have hym : (y : ℤ) < m := by
    have := List.mem_range.mp hy
    omega
  rw [upperBound_eq_findIdx hs, upperBound_eq_findIdx hts,
    List.findIdx_append]
  have hlt : t.findIdx (fun a => decide ((y : ℤ) < a)) < t.length := by
    rw [← upperBound_eq_findIdx hts]
    exact upperBound_lt_length hts ⟨m, hmem, hym⟩
  rw [if_pos hlt]

theorem bsum_get (N : ℕ) {rg : ℕ} (h : rg < N) :
    ((List.range N).map (fun (t : ℕ) => (t : ℤ) + 1)).get? rg
      = some ((rg : ℤ) + 1) := by
  rw [List.get?_eq_getElem?, List.getElem?_map, List.getElem?_range h]
  rfl

/-- With singleton batches the prefix-sum table is `[1, 2, ..., N]` and
the batch procedure's age arithmetic `gidx - batchsum[r[g]]` agrees with
the step procedure's `i - r[g] - 1`. -/
theorem batchThreshold_eq_stepThreshold {gammai : List ℚ} {w0 alpha : ℚ}
    {N b : ℕ} {r : List ℕ} (hr : ∀ rg ∈ r, rg < N) :
    batchThreshold ((List.range N).map (fun (t : ℕ) => (t : ℤ) + 1))
        gammai w0 alpha (b : ℤ) r
      = stepThreshold gammai w0 alpha b r := by
  cases r with
  | nil => rfl
  | cons r0 rest =>
    have hr0 : ((List.range N).map (fun (t : ℕ) => (t : ℤ) + 1)).get? r0
        = some ((r0 : ℤ) + 1) := bsum_get N (hr r0 (List.mem_cons_self _ _))
    have hidx0 : (b : ℤ) - ((r0 : ℤ) + 1) = (b : ℤ) - (r0 : ℕ) - 1 := by
      push_cast
      ring
    cases rest with
    | nil =>
      show (getZ gammai (b : ℤ)).bind (fun g1 =>
          (((List.range N).map (fun (t : ℕ) => (t : ℤ) + 1)).get? r0).bind
            (fun bs0 => (getZ gammai ((b : ℤ) - bs0)).bind (fun g2 =>
              some (g1 * w0 + (alpha - w0) * g2))))
        = (getZ gammai (b : ℤ)).bind (fun g1 =>
            (getZ gammai ((b : ℤ) - (r0 : ℕ) - 1)).bind (fun g2 =>
              some (g1 * w0 + (alpha - w0) * g2)))
      simp only [hr0, Option.some_bind, hidx0]
    | cons r1 rest2 =>
      have hfold : ∀ s0 : ℚ,
          (r1 :: rest2).foldlM (fun acc rg =>
            (((List.range N).map (fun (t : ℕ) => (t : ℤ) + 1)).get? rg).bind
              (fun bsg => (getZ gammai ((b : ℤ) - bsg)).bind
                (fun g => some (acc + g)))) s0
          = (r1 :: rest2).foldlM (fun acc rg =>
              (getZ gammai ((b : ℤ) - (rg : ℕ) - 1)).bind
                (fun g => some (acc + g))) s0 := by
        intro s0
        apply foldlM_congr_mem
        intro rg hrg s
        have hgr := bsum_get N (hr rg (List.mem_cons_of_mem _ hrg))
        have hidx : (b : ℤ) - ((rg : ℤ) + 1) = (b : ℤ) - (rg : ℕ) - 1 := by
          push_cast
          ring
        simp only [hgr, Option.some_bind, hidx]
      show (getZ gammai (b : ℤ)).bind (fun g1 =>
          (((List.range N).map (fun (t : ℕ) => (t : ℤ) + 1)).get? r0).bind
            (fun bs0 =>
              ((r1 :: rest2).foldlM (fun acc rg =>
                (((List.range N).map (fun (t : ℕ) => (t : ℤ) + 1)).get? rg).bind
                  (fun bsg => (getZ gammai ((b : ℤ) - bsg)).bind
                    (fun g => some (acc + g)))) 0).bind (fun s =>
                (getZ gammai ((b : ℤ) - bs0)).bind (fun g2 =>
                  some (g1 * w0 + (alpha - w0) * g2 + alpha * s)))))
        = (getZ gammai (b : ℤ)).bind (fun g1 =>
            (getZ gammai ((b : ℤ) - (r0 : ℕ) - 1)).bind (fun g2 =>
              ((r1 :: rest2).foldlM (fun acc rg =>
                (getZ gammai ((b : ℤ) - (rg : ℕ) - 1)).bind
                  (fun g => some (acc + g))) 0).bind (fun s =>
                some (g1 * w0 + (alpha - w0) * g2 + alpha * s))))
      simp only [hr0, Option.some_bind, hidx0, hfold 0]
      cases getZ gammai (b : ℤ) with
      | none => rfl
      | some g1 =>
        simp only [Option.some_bind]
        cases (r1 :: rest2).foldlM (fun acc rg =>
            (getZ gammai ((b : ℤ) - (rg : ℕ) - 1)).bind
              (fun g => some (acc + g))) 0 with
        | none =>
          cases getZ gammai ((b : ℤ) - (r0 : ℕ) - 1) <;> rfl
        | some s =>
          cases getZ gammai ((b : ℤ) - (r0 : ℕ) - 1) <;> rfl

theorem setCell_map_singleton {α : Type} (l : List α) (b : ℕ) (v : α)
    (hb : b < l.length) :
    setCell (l.map (fun a => [a])) b 0 v = (l.set b v).map (fun a => [a]) := by
  unfold setCell
  rw [List.map_set]
  congr 1
  rw [List.getD_eq_getElem (l.map (fun a => [a])) [] (by simpa using hb),
    List.getElem_map]
  rfl

theorem foldlM_range_one {σ : Type} (f : σ → ℕ → Option σ) (s : σ) :
    (List.range 1).foldlM f s = f s 0 := by
  show (f s 0 >>= fun s1 => pure s1) = f s 0
  cases f s 0 <;> rfl

theorem hist_concat_visCount {R : List Bool} {hist : List ℤ} {b : ℕ}
    (hb1 : 1 ≤ b)
    (hH : hist = (List.range' 1 (b - 1)).map (fun k => visCount R k)) :
    hist ++ [visCount R b] = (List.range' 1 b).map (fun k => visCount R k) := by
  obtain ⟨m, rfl⟩ : ∃ m, b = m + 1 := ⟨b - 1, by omega⟩
  rw [List.range'_concat, List.map_append, show 1 + 1 * m = m + 1 by omega,
    hH]
  simp

/-- Invariant of the zero-lag dependency run used for the batch
simulation: lengths, the recomputed history, and the not-yet-written
decisions still being `false`. -/
def C5Inv (pval : List ℚ) (b : ℕ) (st : SState) : Prop :=
  st.alphai.length = pval.length ∧ st.R.length = pval.length ∧
  st.hist = (List.range' 1 (b - 1)).map (fun k => visCount st.R k) ∧
  (∀ j, b ≤ j → st.R.getD j false = false)

theorem C5_step_sim {pval gammai : List ℚ} {w0 alpha : ℚ} {b : ℕ}
    {st : SState} (hb1 : 1 ≤ b) (hbN : b < pval.length)
    (hinv : C5Inv pval b st) :
    batchOuter pval (List.replicate pval.length 1)
        ((List.range pval.length).map (fun (t : ℕ) => (t : ℤ) + 1))
        gammai w0 alpha
        ⟨st.alphai.map (fun a => [a]), st.R.map (fun v => [v])⟩ b
      = (depStep pval (List.replicate pval.length 0) gammai w0 alpha st b).map
          (fun s => (⟨s.alphai.map (fun a => [a]),
            s.R.map (fun v => [v])⟩ : BState)) := by
  obtain ⟨hA, hR, hH, hz⟩ := hinv
  have hdep : depStep pval (List.replicate pval.length 0) gammai w0 alpha st b
      = (stepThreshold gammai w0 alpha b
          (invertCounts ((List.range' 1 b).map
            (fun k => visCount st.R k)))).bind (fun ai =>
          (pval.get? b).bind (fun pi =>
            some ⟨st.alphai.set b ai,
                  st.R.set b (decide (pi ≤ ai)),
                  (List.range' 1 b).map (fun k => visCount st.R k)⟩)) := by
    unfold depStep
    rw [depCond_zero_lag hb1 hbN hR]
    show (stepThreshold gammai w0 alpha b
        (invertCounts (st.hist ++ [visCount st.R b]))).bind (fun ai =>
      (pval.get? b).bind (fun pi =>
        some (⟨st.alphai.set b ai, st.R.set b (decide (pi ≤ ai)),
          st.hist ++ [visCount st.R b]⟩ : SState)))
      = (stepThreshold gammai w0 alpha b
          (invertCounts ((List.range' 1 b).map
            (fun k => visCount st.R k)))).bind (fun ai =>
          (pval.get? b).bind (fun pi =>
            some (⟨st.alphai.set b ai,
                  st.R.set b (decide (pi ≤ ai)),
                  (List.range' 1 b).map (fun k => visCount st.R k)⟩ : SState)))
    rw [hist_concat_visCount hb1 hH]
  have hrcum : cumsum (rowSums (st.R.map (fun v => [v])))
      = ((List.range' 1 b).map (fun k => visCount st.R k))
        ++ List.replicate (pval.length - b) (visCount st.R b) := by
    rw [rowSums_map_singleton, cumsum_ind, hR]
    exact range_map_visCount_split hb1 (le_of_lt hbN) hz
  have hmemT : visCount st.R b
      ∈ (List.range' 1 b).map (fun k => visCount st.R k) :=
    List.mem_map.mpr ⟨b, List.mem_range'_1.mpr ⟨hb1, by omega⟩, rfl⟩
  have hmaxT : ∀ a ∈ (List.range' 1 b).map (fun k => visCount st.R k),
      a ≤ visCount st.R b := by
    intro a ha
    rcases List.mem_map.mp ha with ⟨k, hk, rfl⟩
    exact visCount_mono st.R (by have := (List.mem_range'_1.mp hk).2; omega)
  have hinvEq : invertCounts
      (((List.range' 1 b).map (fun k => visCount st.R k))
        ++ List.replicate (pval.length - b) (visCount st.R b))
      = invertCounts ((List.range' 1 b).map (fun k => visCount st.R k)) :=
    invertCounts_append_const (visCount_hist_sorted st.R b)
      (hist_pad_sorted st.R b _) hmemT hmaxT
  have hrN : ∀ rg ∈ invertCounts
      ((List.range' 1 b).map (fun k => visCount st.R k)),
      rg < pval.length := by
    intro rg hrg
    have := invertCounts_mem_lt (visCount_hist_sorted st.R b) rg hrg
    rw [List.length_map, List.length_range'] at this
    omega
  have hbA : b < st.alphai.length := by rw [hA]; exact hbN
  have hbR : b < st.R.length := by rw [hR]; exact hbN
  have hsc1 : ∀ v, setCell (st.alphai.map (fun a => [a])) b 0 v
      = (st.alphai.set b v).map (fun a => [a]) :=
    fun v => setCell_map_singleton st.alphai b v hbA
  have hsc2 : ∀ v, setCell (st.R.map (fun a => [a])) b 0 v
      = (st.R.set b v).map (fun a => [a]) :=
    fun v => setCell_map_singleton st.R b v hbR
  have hbatch : batchOuter pval (List.replicate pval.length 1)
        ((List.range pval.length).map (fun (t : ℕ) => (t : ℤ) + 1))
        gammai w0 alpha
        ⟨st.alphai.map (fun a => [a]), st.R.map (fun v => [v])⟩ b
      = (stepThreshold gammai w0 alpha b
          (invertCounts ((List.range' 1 b).map
            (fun k => visCount st.R k)))).bind (fun ai =>
          (pval.get? b).bind (fun pi =>
            some ⟨(st.alphai.set b ai).map (fun a => [a]),
                  (st.R.set b (decide (pi ≤ ai))).map (fun v => [v])⟩)) := by
    unfold batchOuter
    rw [get?_replicate_lt (1 : ℤ) hbN]
    show (List.range 1).foldlM
        (batchBody pval
          ((List.range pval.length).map (fun (t : ℕ) => (t : ℤ) + 1))
          gammai w0 alpha b
          (cumsum (rowSums (st.R.map (fun v => [v])))))
        ⟨st.alphai.map (fun a => [a]), st.R.map (fun v => [v])⟩
      = (stepThreshold gammai w0 alpha b
          (invertCounts ((List.range' 1 b).map
            (fun k => visCount st.R k)))).bind (fun ai =>
          (pval.get? b).bind (fun pi =>
            some (⟨(st.alphai.set b ai).map (fun a => [a]),
                  (st.R.set b (decide (pi ≤ ai))).map
                    (fun v => [v])⟩ : BState)))
    rw [foldlM_range_one]
    unfold batchBody
    rw [hrcum, guard_invert, hinvEq,
      bsum_get pval.length (show b - 1 < pval.length by omega)]
    have hcast : ((b - 1 : ℕ) : ℤ) + 1 + ((0 : ℕ) : ℤ) = (b : ℤ) := by
      omega
    show (batchThreshold
        ((List.range pval.length).map (fun (t : ℕ) => (t : ℤ) + 1))
        gammai w0 alpha (((b - 1 : ℕ) : ℤ) + 1 + ((0 : ℕ) : ℤ))
        (invertCounts ((List.range' 1 b).map
          (fun k => visCount st.R k)))).bind (fun ai =>
      (getZ pval (((b - 1 : ℕ) : ℤ) + 1 + ((0 : ℕ) : ℤ))).bind (fun pi =>
        some (⟨setCell (st.alphai.map (fun a => [a])) b 0 ai,
              setCell (st.R.map (fun v => [v])) b 0
                (decide (pi ≤ ai))⟩ : BState)))
      = (stepThreshold gammai w0 alpha b
          (invertCounts ((List.range' 1 b).map
            (fun k => visCount st.R k)))).bind (fun ai =>
          (pval.get? b).bind (fun pi =>
            some (⟨(st.alphai.set b ai).map (fun a => [a]),
                  (st.R.set b (decide (pi ≤ ai))).map
                    (fun v => [v])⟩ : BState)))
    simp only [hcast]
    rw [batchThreshold_eq_stepThreshold hrN]
    simp only [getZ_natCast, hsc1, hsc2]
  rw [hbatch, hdep]
  cases stepThreshold gammai w0 alpha b
      (invertCounts ((List.range' 1 b).map (fun k => visCount st.R k))) with
  | none => rfl
  | some ai =>
    simp only [Option.some_bind]
    cases pval.get? b with
    | none => rfl
    | some pi => rfl

theorem C5_step_inv {pval gammai : List ℚ} {w0 alpha : ℚ} {b : ℕ}
    {st st' : SState} (hb1 : 1 ≤ b) (hbN : b < pval.length)
    (hs : depStep pval (List.replicate pval.length 0) gammai w0 alpha st b
      = some st')
    (hinv : C5Inv pval b st) : C5Inv pval (b + 1) st' := by
  obtain ⟨hA, hR, hH, hz⟩ := hinv
  unfold depStep at hs
  rw [depCond_zero_lag hb1 hbN hR] at hs
  simp only [Option.bind_eq_bind, Option.some_bind] at hs
  cases ht : stepThreshold gammai w0 alpha b
      (invertCounts (st.hist ++ [visCount st.R b])) with
  | none => rw [ht] at hs; exact absurd hs (by simp)
  | some ai =>
    rw [ht] at hs
    simp only [Option.some_bind] at hs
    cases hp : pval.get? b with
    | none => rw [hp] at hs; exact absurd hs (by simp)
    | some pi =>
      rw [hp] at hs
      simp only [Option.some_bind, Option.pure_def, Option.some_inj] at hs
      subst hs
      refine ⟨by simpa using hA, by simpa using hR, ?_, ?_⟩
      · show st.hist ++ [visCount st.R b]
          = (List.range' 1 (b + 1 - 1)).map
            (fun k => visCount (st.R.set b (decide (pi ≤ ai))) k)
        have hmap : (List.range' 1 (b + 1 - 1)).map
            (fun k => visCount (st.R.set b (decide (pi ≤ ai))) k)
            = (List.range' 1 b).map (fun k => visCount st.R k) := by
          apply List.map_congr_left
          intro k hk
          have hkb := (List.mem_range'_1.mp (by simpa using hk)).2
          exact visCount_set_stable st.R _ (by omega)
        rw [hmap]
        exact hist_concat_visCount hb1 hH
      · intro j hj
        rw [getD_set_ne _ _ _ _ _ (by omega)]
        exact hz j (by omega)

theorem vecMax_replicate_one {N : ℕ} (h : 1 ≤ N) :
    vecMax (List.replicate N (1 : ℤ)) = 1 := by
  have hne : List.replicate N (1 : ℤ) ≠ [] := by
    simp
    omega
  apply le_antisymm
  · rw [List.eq_of_mem_replicate (vecMax_mem hne)]
  · exact le_vecMax (by simp [List.mem_replicate]; omega)

/-- C5: with all `N` batch sizes equal to 1 and `batchsum` the
corresponding prefix sums `[1, ..., N]`, the batch procedure agrees with
the zero-lag dependency procedure run for run: its `N × 1` output
matrices are exactly the dependency procedure's threshold and decision
vectors with every entry wrapped as a one-element row, and one run
returns a result exactly when the other does. -/
theorem claim_C5_singleton_batches_eq_dep (pval gammai : List ℚ)
    (w0 alpha : ℚ) :
    lordstar_batch_faster pval (List.replicate pval.length 1)
        ((List.range pval.length).map (fun (t : ℕ) => (t : ℤ) + 1))
        gammai w0 alpha
      = (lordstar_dep_faster pval (List.replicate pval.length 0) gammai
          w0 alpha).map
          (fun o => (o.1.map (fun a => [a]), o.2.map (fun v => [v]))) := by
  by_cases hN0 : pval.length = 0
  · have hpe : pval = [] := List.length_eq_zero.mp hN0
    subst hpe
    cases hg : gammai.get? 0 with
    | none => simp [lordstar_batch_faster, lordstar_dep_faster, hg]
    | some g0 => simp [lordstar_batch_faster, lordstar_dep_faster, hg]
  · have hN1 : 1 ≤ pval.length := by omega
    have hM : (vecMax (List.replicate pval.length (1 : ℤ))).toNat = 1 := by
      rw [vecMax_replicate_one hN1]
      rfl
    obtain ⟨p0, hp0⟩ : ∃ p0, pval.get? 0 = some p0 := by
      cases pval with
      | nil => simp at hN0
      | cons a t => exact ⟨a, rfl⟩
    unfold lordstar_batch_faster lordstar_dep_faster
    rw [get?_replicate_lt (1 : ℤ) (show 0 < pval.length by omega)]
    cases hg : gammai.get? 0 with
    | none =>
      simp only [Option.bind_eq_bind, Option.some_bind, hg, Option.none_bind]
      rw [show ((1 : ℤ).toNat) = 1 from rfl, foldlM_range_one]
      simp only [hg, Option.none_bind]
      rfl
    | some g0 =>
      simp only [Option.bind_eq_bind, Option.some_bind, hg, hp0]
      rw [show ((1 : ℤ).toNat) = 1 from rfl, foldlM_range_one, hM,
        List.length_replicate]
      simp only [hg, hp0, Option.bind_eq_bind, Option.some_bind,
        Option.pure_def, List.replicate_one]
      have hseedA : setCell (List.replicate pval.length [(0 : ℚ)]) 0 0
          (g0 * w0)
          = ((List.replicate pval.length (0 : ℚ)).set 0 (g0 * w0)).map
            (fun a => [a]) := by
        have hrep : List.replicate pval.length [(0 : ℚ)]
            = (List.replicate pval.length (0 : ℚ)).map (fun a => [a]) := by
          rw [List.map_replicate]
        rw [hrep]
        exact setCell_map_singleton _ 0 _ (by simp; omega)
      have hseedR : setCell (List.replicate pval.length [false]) 0 0
          (decide (p0 ≤ g0 * w0))
          = ((List.replicate pval.length false).set 0
              (decide (p0 ≤ g0 * w0))).map (fun v => [v]) := by
        have hrep : List.replicate pval.length [false]
            = (List.replicate pval.length false).map (fun v => [v]) := by
          rw [List.map_replicate]
        rw [hrep]
        exact setCell_map_singleton _ 0 _ (by simp; omega)
      have hseedInv : C5Inv pval 1
          ⟨(List.replicate pval.length (0 : ℚ)).set 0 (g0 * w0),
           (List.replicate pval.length false).set 0 (decide (p0 ≤ g0 * w0)),
           []⟩ := by
        refine ⟨by simp, by simp, rfl, ?_⟩
        intro j hj
        show ((List.replicate pval.length false).set 0
          (decide (p0 ≤ g0 * w0))).getD j false = false
        rw [getD_set_ne _ _ _ _ _ (by omega), getD_replicate]
        split <;> rfl
      have hsim := foldlM_range_map
        (depStep pval (List.replicate pval.length 0) gammai w0 alpha)
        (batchOuter pval (List.replicate pval.length 1)
          ((List.range pval.length).map (fun (t : ℕ) => (t : ℤ) + 1))
          gammai w0 alpha)
        (fun s => (⟨s.alphai.map (fun a => [a]),
          s.R.map (fun v => [v])⟩ : BState))
        (C5Inv pval) (pval.length - 1) 1
        ⟨(List.replicate pval.length (0 : ℚ)).set 0 (g0 * w0),
         (List.replicate pval.length false).set 0 (decide (p0 ≤ g0 * w0)),
         []⟩ hseedInv
        (fun b s hb1 hb2 hPs =>
          ⟨C5_step_sim hb1 (by omega) hPs,
           fun s' hs => C5_step_inv hb1 (by omega) hs hPs⟩)
      have hsim2 : (List.range' 1 (pval.length - 1)).foldlM
          (batchOuter pval (List.replicate pval.length 1)
            ((List.range pval.length).map (fun (t : ℕ) => (t : ℤ) + 1))
            gammai w0 alpha)
          ⟨((List.replicate pval.length (0 : ℚ)).set 0 (g0 * w0)).map
             (fun a => [a]),
           ((List.replicate pval.length false).set 0
             (decide (p0 ≤ g0 * w0))).map (fun v => [v])⟩
        = ((List.range' 1 (pval.length - 1)).foldlM
            (depStep pval (List.replicate pval.length 0) gammai w0 alpha)
            ⟨(List.replicate pval.length (0 : ℚ)).set 0 (g0 * w0),
             (List.replicate pval.length false).set 0
               (decide (p0 ≤ g0 * w0)), []⟩).map
            (fun s => (⟨s.alphai.map (fun a => [a]),
              s.R.map (fun v => [v])⟩ : BState)) := hsim
      rw [hseedA, hseedR, hsim2]
      cases (List.range' 1 (pval.length - 1)).foldlM
          (depStep pval (List.replicate pval.length 0) gammai w0 alpha)
          ⟨(List.replicate pval.length (0 : ℚ)).set 0 (g0 * w0),
           (List.replicate pval.length false).set 0
             (decide (p0 ≤ g0 * w0)), []⟩ with
      | none => rfl
      | some stD => rfl

end OnlineFDR
